import Mathlib

/-! # Tower of Hanoi visualizer: trace generator and timeline navigator

A shallow embedding of `src/my-app/src/App.jsx` (`generateTowerOfHanoiSteps`,
its inner `recordStep` / `tohRecursive`, and the navigation handlers of `App`),
followed by theorems about the generated trace, the call tree and the cursor.

Conventions of the embedding:
* a JavaScript array is a `List` whose last element is the most recently pushed
  one, so a rod is listed bottom to top exactly as in the source;
* the node id string `treeNode-k` is represented by the number `k`, and
  `null` / `undefined` by `none`;
* the mutable locals of `generateTowerOfHanoiSteps` are the fields of `GenState`,
  threaded through every operation;
* `nodeMap[id]` is a reference to the node object that also sits in
  `generatedTreeNodes`; a write through `nodeMap[id]` is an update of the node
  with that id inside the list.
-/

namespace Hanoi

/-! ## Data model -/

/-- The three rods `'A'`, `'B'`, `'C'`. -/
inductive Peg where
  | A
  | B
  | C
deriving DecidableEq, Repr

/-- The rod letter as it is spliced into descriptions and labels. -/
def Peg.name : Peg → String
  | .A => "A"
  | .B => "B"
  | .C => "C"

/-- The object `{ A: [], B: [], C: [] }`; each array is bottom to top. -/
structure Rods where
  A : List Nat
  B : List Nat
  C : List Nat
deriving DecidableEq, Repr

/-- Reading `rods[peg]`. -/
def Rods.get (r : Rods) : Peg → List Nat
  | .A => r.A
  | .B => r.B
  | .C => r.C

/-- Replacing the array stored at `rods[peg]`. -/
def Rods.set (r : Rods) (p : Peg) (l : List Nat) : Rods :=
  match p with
  | .A => { r with A := l }
  | .B => { r with B := l }
  | .C => { r with C := l }

/-- The object `{ disk, from, to }`; `disk` is `none` when `pop()` gave `undefined`. -/
structure MoveDetails where
  disk : Option Nat
  fromPeg : Peg
  toPeg : Peg
deriving DecidableEq, Repr

/-- The `nodePhase` tags that occur in the source. -/
inductive Phase where
  | initial
  | initial_setup
  | entering_call
  | processing_move_base
  | returning_base
  | before_recursion_1
  | processing_move_N
  | processing_move_N_done
  | before_recursion_2
  | returning_N
  | finished
deriving DecidableEq, Repr

/-- The string literal of each tag. -/
def Phase.name : Phase → String
  | .initial => "initial"
  | .initial_setup => "initial_setup"
  | .entering_call => "entering_call"
  | .processing_move_base => "processing_move_base"
  | .returning_base => "returning_base"
  | .before_recursion_1 => "before_recursion_1"
  | .processing_move_N => "processing_move_N"
  | .processing_move_N_done => "processing_move_N_done"
  | .before_recursion_2 => "before_recursion_2"
  | .returning_N => "returning_N"
  | .finished => "finished"

/-- One entry of `steps` (the object pushed by `recordStep`). -/
structure Step where
  rods : Rods
  callStack : List String
  description : String
  moveDetails : Option MoveDetails
  isCall : Bool
  isReturn : Bool
  activeNodeId : Option Nat
  nodePhase : Phase
deriving DecidableEq, Repr

/-- One entry of `generatedTreeNodes` (the object `newNode`); `lastStepIndex`
is `none` until it is assigned. -/
structure TreeNode where
  id : Nat
  parentId : Option Nat
  label : String
  n : Nat
  fromPeg : Peg
  toPeg : Peg
  auxPeg : Peg
  childrenIds : List Nat
  firstStepIndex : Nat
  lastStepIndex : Option Nat
deriving DecidableEq, Repr

/-- The mutable locals of `generateTowerOfHanoiSteps`. -/
structure GenState where
  steps : List Step
  callStack : List String
  tempRods : Rods
  nodeIdCounter : Nat
  generatedTreeNodes : List TreeNode
deriving DecidableEq, Repr

/-! ## Trace generator -/

/-- The loop `for (let i = n; i >= 1; i--) rods.A.push(i)`: the array `[n, ..., 1]`. -/
def pushDisks : Nat → List Nat
  | 0 => []
  | n + 1 => (n + 1) :: pushDisks n

/-- The object literal built inside `recordStep`: the rods are deep-copied and
the call stack is spread, so the entry holds the values of that moment. -/
def snapshot (description : String) (activeNodeId : Option Nat) (nodePhase : Phase)
    (moveDetails : Option MoveDetails) (isCall isReturn : Bool) (s : GenState) : Step :=
  { rods := s.tempRods
    callStack := s.callStack
    description := description
    moveDetails := moveDetails
    isCall := isCall
    isReturn := isReturn
    activeNodeId := activeNodeId
    nodePhase := nodePhase }

/-- The inner function `recordStep`: push a snapshot of the live state. -/
def recordStep (description : String) (activeNodeId : Option Nat) (nodePhase : Phase)
    (moveDetails : Option MoveDetails) (isCall isReturn : Bool) (s : GenState) : GenState :=
  { s with steps :=
      s.steps ++ [snapshot description activeNodeId nodePhase moveDetails isCall isReturn s] }

/-- The result of `tempRods[from].pop()`: the top disk, `none` on an empty rod. -/
def diskToMove (fromPeg : Peg) (s : GenState) : Option Nat :=
  (s.tempRods.get fromPeg).getLast?

/-- The statements `const diskToMove = tempRods[from].pop();
if (diskToMove !== undefined) tempRods[to].push(diskToMove);` on the rods. -/
def popPush (fromPeg toPeg : Peg) (r : Rods) : Rods :=
  let popped := r.set fromPeg (r.get fromPeg).dropLast
  match (r.get fromPeg).getLast? with
  | some d => popped.set toPeg (popped.get toPeg ++ [d])
  | none => popped

/-- The effect of the pop and guarded push on the generator state. -/
def moveDisk (fromPeg toPeg : Peg) (s : GenState) : GenState :=
  { s with tempRods := popPush fromPeg toPeg s.tempRods }

/-- The text `MOVE: Disk d from Rod f to Rod t`, with `?` for a missing disk. -/
def moveDescription (d : Option Nat) (fromPeg toPeg : Peg) : String :=
  "MOVE: Disk " ++ (match d with | some x => toString x | none => "?") ++
    " from Rod " ++ fromPeg.name ++ " to Rod " ++ toPeg.name

/-- The text `towerOfHanoi(count, 'from', 'to', 'aux')`. -/
def callSignature (count : Nat) (fromPeg toPeg auxPeg : Peg) : String :=
  "towerOfHanoi(" ++ toString count ++ ", '" ++ fromPeg.name ++ "', '" ++ toPeg.name ++
    "', '" ++ auxPeg.name ++ "')"

/-- The text `H(count, from, to, aux)`. -/
def nodeLabel (count : Nat) (fromPeg toPeg auxPeg : Peg) : String :=
  "H(" ++ toString count ++ ", " ++ fromPeg.name ++ ", " ++ toPeg.name ++ ", " ++
    auxPeg.name ++ ")"

/-- The statements `if (parentNodeId) { const parentNode = nodeMap[parentNodeId];
if (parentNode) parentNode.childrenIds.push(currentNodeId); }`. -/
def pushChild (parentNodeId : Option Nat) (currentNodeId : Nat) (nodes : List TreeNode) :
    List TreeNode :=
  match parentNodeId with
  | none => nodes
  | some pid =>
    nodes.map fun nd =>
      if nd.id = pid then { nd with childrenIds := nd.childrenIds ++ [currentNodeId] } else nd

/-- The statement `nodeMap[currentNodeId].lastStepIndex = steps.length`. -/
def setLastStepIndex (currentNodeId : Nat) (idx : Nat) (nodes : List TreeNode) : List TreeNode :=
  nodes.map fun nd => if nd.id = currentNodeId then { nd with lastStepIndex := some idx } else nd

/-- The object `newNode` of lines 408-415, built when the counter already holds
the id of the call. -/
def newNode (count : Nat) (fromPeg toPeg auxPeg : Peg) (parentNodeId : Option Nat)
    (s : GenState) : TreeNode :=
  { id := s.nodeIdCounter + 1
    parentId := parentNodeId
    label := nodeLabel count fromPeg toPeg auxPeg
    n := count
    fromPeg := fromPeg
    toPeg := toPeg
    auxPeg := auxPeg
    childrenIds := []
    firstStepIndex := s.steps.length
    lastStepIndex := none }

/-- Lines 404-427: allocate the node, link it to its parent, push the call
signature and record the `entering_call` step. -/
def enterCall (count : Nat) (fromPeg toPeg auxPeg : Peg) (parentNodeId : Option Nat)
    (s : GenState) : GenState :=
  let currentNodeId := s.nodeIdCounter + 1
  let s1 : GenState :=
    { s with nodeIdCounter := currentNodeId
             generatedTreeNodes :=
               pushChild parentNodeId currentNodeId
                 (s.generatedTreeNodes ++ [newNode count fromPeg toPeg auxPeg parentNodeId s])
             callStack := s.callStack ++ [callSignature count fromPeg toPeg auxPeg] }
  recordStep ("CALL: " ++ callSignature count fromPeg toPeg auxPeg) (some currentNodeId)
    .entering_call none true false s1

/-- Lines 430-432 and 445-447: pop, guarded push, and the step carrying the
move descriptor. -/
def performMove (fromPeg toPeg : Peg) (currentNodeId : Nat) (ph : Phase) (s : GenState) :
    GenState :=
  let d := diskToMove fromPeg s
  recordStep (moveDescription d fromPeg toPeg) (some currentNodeId) ph
    (some { disk := d, fromPeg := fromPeg, toPeg := toPeg }) false false
    (moveDisk fromPeg toPeg s)

/-- Lines 434-437 and 452-455: pop the call stack, store `lastStepIndex`, record
the returning step. -/
def returnCall (count : Nat) (fromPeg toPeg auxPeg : Peg) (currentNodeId : Nat) (ph : Phase)
    (s : GenState) : GenState :=
  let s1 : GenState :=
    { s with callStack := s.callStack.dropLast
             generatedTreeNodes :=
               setLastStepIndex currentNodeId s.steps.length s.generatedTreeNodes }
  recordStep ("RETURN from " ++ callSignature count fromPeg toPeg auxPeg) (some currentNodeId)
    ph none false true s1

/-- The description of the `before_recursion_1` step (line 441). -/
def firstCallDescription (count : Nat) (fromPeg toPeg auxPeg : Peg) : String :=
  "Preparing for 1st recursive call from " ++ nodeLabel count fromPeg toPeg auxPeg ++
    " (move " ++ toString (count - 1) ++ " disks from " ++ fromPeg.name ++ " to " ++
    auxPeg.name ++ ")"

/-- The description of the `processing_move_N` step (line 444). -/
def bigMoveDescription (count : Nat) (fromPeg toPeg auxPeg : Peg) : String :=
  "Returned from 1st call. Moving disk " ++ toString count ++ " from " ++ fromPeg.name ++
    " to " ++ toPeg.name ++ " for " ++ nodeLabel count fromPeg toPeg auxPeg

/-- The description of the `before_recursion_2` step (line 449). -/
def secondCallDescription (count : Nat) (fromPeg toPeg auxPeg : Peg) : String :=
  "Preparing for 2nd recursive call from " ++ nodeLabel count fromPeg toPeg auxPeg ++
    " (move " ++ toString (count - 1) ++ " disks from " ++ auxPeg.name ++ " to " ++
    toPeg.name ++ ")"

/-- The inner function `tohRecursive(count, from, to, aux, parentNodeId)`.
With `count = 0` the source never meets `count === 1` and recurses without
end; that run produces no state, which is `none` here. -/
def tohRecursive : Nat → Peg → Peg → Peg → Option Nat → GenState → Option GenState
  | 0, _, _, _, _, _ => none
  | count + 1, fromPeg, toPeg, auxPeg, parentNodeId, s =>
    let currentNodeId := s.nodeIdCounter + 1
    let s1 := enterCall (count + 1) fromPeg toPeg auxPeg parentNodeId s
    if count + 1 = 1 then
      let s2 := performMove fromPeg toPeg currentNodeId .processing_move_base s1
      some (returnCall (count + 1) fromPeg toPeg auxPeg currentNodeId .returning_base s2)
    else
      let s2 := recordStep (firstCallDescription (count + 1) fromPeg toPeg auxPeg)
        (some currentNodeId) .before_recursion_1 none false false s1
      match tohRecursive count fromPeg auxPeg toPeg (some currentNodeId) s2 with
      | none => none
      | some s3 =>
        let s4 := recordStep (bigMoveDescription (count + 1) fromPeg toPeg auxPeg)
          (some currentNodeId) .processing_move_N none false false s3
        let s5 := performMove fromPeg toPeg currentNodeId .processing_move_N_done s4
        let s6 := recordStep (secondCallDescription (count + 1) fromPeg toPeg auxPeg)
          (some currentNodeId) .before_recursion_2 none false false s5
        match tohRecursive count auxPeg toPeg fromPeg (some currentNodeId) s6 with
        | none => none
        | some s7 =>
          some (returnCall (count + 1) fromPeg toPeg auxPeg currentNodeId .returning_N s7)

/-- The object `{ steps, treeStructure }` returned by the generator. -/
structure Generated where
  steps : List Step
  treeStructure : List TreeNode
deriving DecidableEq, Repr

/-- The locals as they stand when `recordStep` is first called (lines 376-385). -/
def initState (n_disks : Nat) : GenState :=
  { steps := []
    callStack := []
    tempRods := { A := pushDisks n_disks, B := [], C := [] }
    nodeIdCounter := 0
    generatedTreeNodes := [] }

/-- The function `generateTowerOfHanoiSteps(n_disks)`. -/
def generateTowerOfHanoiSteps (n_disks : Nat) : Option Generated :=
  let s0 := recordStep
    ("Initial state with " ++ toString n_disks ++ " disks on Rod A.") none .initial_setup
    none false false (initState n_disks)
  let s1 := if n_disks > 0 then tohRecursive n_disks .A .C .B none s0 else some s0
  match s1 with
  | none => none
  | some s1 =>
    let s2 := recordStep "Algorithm finished." none .finished none false false s1
    some { steps := s2.steps, treeStructure := s2.generatedTreeNodes }

/-! ## Timeline navigator (state and handlers of `App`) -/

/-- The state variables of `App`. `intervalId` holds, for the handle returned by
`setInterval`, the `allSteps` array its callback closed over; `intervalLive`
tells whether that interval is still scheduled. -/
structure AppState where
  numDisks : Nat
  allSteps : List Step
  currentStepIndex : Int
  isPlaying : Bool
  intervalId : Option (List Step)
  intervalLive : Bool
  treeStructure : List TreeNode
deriving DecidableEq, Repr

/-- The values passed to `useState` (lines 338-343). -/
def initialAppState : AppState :=
  { numDisks := 3
    allSteps := []
    currentStepIndex := -1
    isPlaying := false
    intervalId := none
    intervalLive := false
    treeStructure := [] }

/-- The memoized `currentStepData` (lines 346-365). -/
def currentStepData (s : AppState) : Step :=
  if 0 ≤ s.currentStepIndex ∧ s.currentStepIndex < (s.allSteps.length : Int) then
    s.allSteps.getD s.currentStepIndex.toNat
      { rods := { A := [], B := [], C := [] }
        callStack := []
        description := ""
        moveDetails := none
        isCall := false
        isReturn := false
        activeNodeId := none
        nodePhase := .initial }
  else
    { rods := { A := pushDisks s.numDisks, B := [], C := [] }
      callStack := []
      description :=
        "Set number of disks (currently " ++ toString s.numDisks ++ ") and press Start/Reset."
      moveDetails := none
      isCall := false
      isReturn := false
      activeNodeId := none
      nodePhase := .initial }

/-- The memoized `actualMoves` (lines 368-373). -/
def actualMoves (s : AppState) : Nat :=
  if s.currentStepIndex < 0 then 0
  else
    ((s.allSteps.take (s.currentStepIndex + 1).toNat).filter fun step =>
      step.nodePhase = .processing_move_base ∨ step.nodePhase = .processing_move_N_done).length

/-- The prop `isFinished` handed to `Controls` (line 555). -/
def isFinished (s : AppState) : Bool :=
  decide ((s.allSteps.length : Int) - 1 ≤ s.currentStepIndex ∧ 0 < s.allSteps.length)

/-- The `onChange` of the disk-count input: `setNumDisks` on the clamped value. -/
def setNumDisks (n : Nat) (s : AppState) : AppState :=
  { s with numDisks := n }

/-- The handler `handleStartReset`. When the generator yields no result the
statements after the call are not reached. -/
def handleStartReset (s : AppState) : AppState :=
  let s1 : AppState := { s with isPlaying := false, intervalLive := false, intervalId := none }
  match generateTowerOfHanoiSteps s.numDisks with
  | none => s1
  | some g => { s1 with allSteps := g.steps, treeStructure := g.treeStructure,
                        currentStepIndex := 0 }

/-- The handler `handlePlayPause`. -/
def handlePlayPause (s : AppState) : AppState :=
  if s.isPlaying then
    { s with isPlaying := false, intervalLive := false, intervalId := none }
  else if s.currentStepIndex < (s.allSteps.length : Int) - 1 then
    { s with isPlaying := true, intervalId := some s.allSteps, intervalLive := true }
  else s

/-- One firing of the callback given to `setInterval` (lines 486-496); it does
nothing once the interval has been cleared. -/
def intervalTick (s : AppState) : AppState :=
  match s.intervalLive, s.intervalId with
  | true, some captured =>
    if s.currentStepIndex < (captured.length : Int) - 1 then
      { s with currentStepIndex := s.currentStepIndex + 1 }
    else
      { s with intervalLive := false, isPlaying := false }
  | _, _ => s

/-- The handler `handleStepForward`. -/
def handleStepForward (s : AppState) : AppState :=
  if !s.isPlaying ∧ s.currentStepIndex < (s.allSteps.length : Int) - 1 then
    { s with currentStepIndex := s.currentStepIndex + 1 }
  else s

/-- The handler `handleStepBackward`. -/
def handleStepBackward (s : AppState) : AppState :=
  if !s.isPlaying ∧ s.currentStepIndex > 0 then
    { s with currentStepIndex := s.currentStepIndex - 1 }
  else if !s.isPlaying ∧ s.currentStepIndex = 0 then
    { s with currentStepIndex := -1 }
  else s

/-- The effect of lines 525-531, run after a state change: pause at the end. -/
def autoPauseEffect (s : AppState) : AppState :=
  if s.isPlaying ∧ (s.allSteps.length : Int) - 1 ≤ s.currentStepIndex ∧ 0 < s.allSteps.length then
    { s with isPlaying := false, intervalLive := false, intervalId := none }
  else s

/-- The events that drive `App`. -/
inductive Action where
  | setNumDisks (n : Nat)
  | startReset
  | playPause
  | tick
  | stepForward
  | stepBackward
deriving DecidableEq, Repr

/-- One event followed by the effect that React runs after the update. -/
def applyAction (s : AppState) : Action → AppState
  | .setNumDisks n => autoPauseEffect (setNumDisks n s)
  | .startReset => autoPauseEffect (handleStartReset s)
  | .playPause => autoPauseEffect (handlePlayPause s)
  | .tick => autoPauseEffect (intervalTick s)
  | .stepForward => autoPauseEffect (handleStepForward s)
  | .stepBackward => autoPauseEffect (handleStepBackward s)

/-- A whole sequence of events, applied in order. -/
def runActions (s : AppState) (as : List Action) : AppState :=
  as.foldl applyAction s

/-! ## Definitions used to state and prove the theorems

States and steps of the unfolded recursion, the closed form of the call tree,
the replay model, and the invariants. -/

/-- The state returned by `tohRecursive (k + 1)`. -/
def tohRun (k : Nat) (fromPeg toPeg auxPeg : Peg) (parentNodeId : Option Nat) (s : GenState) :
    GenState :=
  (tohRecursive (k + 1) fromPeg toPeg auxPeg parentNodeId s).getD s

/-- The state in which the first recursive call starts (after lines 404-441). -/
def preState (count : Nat) (fromPeg toPeg auxPeg : Peg) (parentNodeId : Option Nat)
    (s : GenState) : GenState :=
  recordStep (firstCallDescription count fromPeg toPeg auxPeg) (some (s.nodeIdCounter + 1))
    .before_recursion_1 none false false (enterCall count fromPeg toPeg auxPeg parentNodeId s)

/-- The state in which the second recursive call starts (after lines 444-449),
from the state `s3` the first call returned. -/
def midState (count : Nat) (fromPeg toPeg auxPeg : Peg) (currentNodeId : Nat) (s3 : GenState) :
    GenState :=
  recordStep (secondCallDescription count fromPeg toPeg auxPeg) (some currentNodeId)
    .before_recursion_2 none false false
    (performMove fromPeg toPeg currentNodeId .processing_move_N_done
      (recordStep (bigMoveDescription count fromPeg toPeg auxPeg) (some currentNodeId)
        .processing_move_N none false false s3))

/-- The `entering_call` step, read off the state `st` that `enterCall` returns. -/
def callStep (count : Nat) (f t a : Peg) (id : Nat) (st : GenState) : Step :=
  snapshot ("CALL: " ++ callSignature count f t a) (some id) .entering_call none true false st

/-- A step without move descriptor and flags, read off the state `st` it leaves. -/
def plainStep (d : String) (id : Nat) (ph : Phase) (st : GenState) : Step :=
  snapshot d (some id) ph none false false st

/-- The step that carries a move descriptor: `s0` is the state before the pop,
`st` the state after the push. -/
def moveStep (f t : Peg) (id : Nat) (ph : Phase) (s0 st : GenState) : Step :=
  snapshot (moveDescription (diskToMove f s0) f t) (some id) ph
    (some { disk := diskToMove f s0, fromPeg := f, toPeg := t }) false false st

/-- The returning step, read off the state `st` that `returnCall` returns. -/
def returnStep (count : Nat) (f t a : Peg) (id : Nat) (ph : Phase) (st : GenState) : Step :=
  snapshot ("RETURN from " ++ callSignature count f t a) (some id) ph none false true st

/-- The state between the `processing_move_N` step and the pop. -/
def bigMoveState (count : Nat) (f t a : Peg) (id : Nat) (s3 : GenState) : GenState :=
  recordStep (bigMoveDescription count f t a) (some id) .processing_move_N none false false s3

/-- The steps that one call `tohRecursive (k + 1)` appends. -/
def newSteps (k : Nat) (f t a : Peg) (p : Option Nat) (s : GenState) : List Step :=
  (tohRun k f t a p s).steps.drop s.steps.length

/-- The `initial_setup` step of a run on `n` disks. -/
def initialStep (n : Nat) : Step :=
  snapshot ("Initial state with " ++ toString n ++ " disks on Rod A.") none .initial_setup
    none false false (initState n)

/-- The state in which the top-level call starts (after line 401). -/
def startState (n : Nat) : GenState :=
  recordStep ("Initial state with " ++ toString n ++ " disks on Rod A.") none .initial_setup
    none false false (initState n)

/-- The `finished` step, read off the state `st` the run ends in. -/
def finishedStep (st : GenState) : Step :=
  snapshot "Algorithm finished." none .finished none false false st

/-- The sequence `S(k)` of phase tags that a call with `k` disks records:
three tags for `k = 1`, and for `k > 1` the tags of both sub-calls framed by
the six tags of the call itself. -/
def phaseSeq : Nat → List Phase
  | 0 => []
  | 1 => [.entering_call, .processing_move_base, .returning_base]
  | k + 2 =>
    [.entering_call, .before_recursion_1] ++ phaseSeq (k + 1) ++
      [.processing_move_N, .processing_move_N_done, .before_recursion_2] ++ phaseSeq (k + 1) ++
      [.returning_N]

/-- The test used by `actualMoves`: the phase of a step that relocated a disk. -/
def isMovePhase (ph : Phase) : Bool :=
  decide (ph = .processing_move_base ∨ ph = .processing_move_N_done)

/-- How often disk `d` occurs on the three rods together. -/
def diskCount (r : Rods) (d : Nat) : Nat :=
  (r.A ++ r.B ++ r.C).count d

/-- Every rod is strictly decreasing from bottom to top. -/
def Sorted (r : Rods) : Prop :=
  ∀ q : Peg, (r.get q).Pairwise (· > ·)

/-- The rods `r` at the entry of a call that moves `k + 1` disks from `f` to `t`
via `a`: the disks `k + 1, ..., 1` lie on top of `f` above the rest `F`, and
everything else on the three rods is larger and stacked in order. -/
structure Ready (k : Nat) (f t a : Peg) (r : Rods) (F : List Nat) : Prop where
  hft : f ≠ t
  hfa : f ≠ a
  hta : t ≠ a
  src : r.get f = F ++ pushDisks (k + 1)
  bigF : ∀ x ∈ F, k + 1 < x
  bigT : ∀ x ∈ r.get t, k + 1 < x
  bigA : ∀ x ∈ r.get a, k + 1 < x
  sortF : F.Pairwise (· > ·)
  sortT : (r.get t).Pairwise (· > ·)
  sortA : (r.get a).Pairwise (· > ·)

/-- One move of the replay model: pop the top disk of `fromPeg` and push it on
`toPeg`. The replay stops with `none` when the source rod is empty or when the
disk would come to lie on a smaller one. -/
def replayMove (m : MoveDetails) (r : Rods) : Option Rods :=
  match (r.get m.fromPeg).getLast? with
  | none => none
  | some d =>
    let popped := r.set m.fromPeg (r.get m.fromPeg).dropLast
    match (popped.get m.toPeg).getLast? with
    | none => some (popped.set m.toPeg (popped.get m.toPeg ++ [d]))
    | some top =>
      if top < d then none else some (popped.set m.toPeg (popped.get m.toPeg ++ [d]))

/-- The replay of a list of moves, in order. -/
def replayMoves : List MoveDetails → Rods → Option Rods
  | [], r => some r
  | m :: ms, r => (replayMove m r).bind (replayMoves ms)

/-- The move descriptors of a trace, in trace order. -/
def moveDescriptors (steps : List Step) : List MoveDetails :=
  steps.filterMap fun st => st.moveDetails

/-- Whether a phase tag starts with the text `processing_move`. -/
def startsWithProcessingMove (ph : Phase) : Bool :=
  "processing_move".toList.isPrefixOf ph.name.toList

/-- The steps of a trace whose phase tag starts with `processing_move`. -/
def processingMoveSteps (steps : List Step) : List Step :=
  steps.filter fun st => startsWithProcessingMove st.nodePhase

/-- The number of steps one call with `k + 1` disks records. -/
def traceLength : Nat → Nat
  | 0 => 3
  | k + 1 => 2 * traceLength k + 6

/-- The nodes that one call with `k + 1` disks leaves in the finished tree, in
closed form: `c` is the id counter and `len` the number of recorded steps at the
moment of the call. The node of the call comes first, then the nodes of the
first sub-call, then those of the second. -/
def callNodes : Nat → Peg → Peg → Peg → Option Nat → Nat → Nat → List TreeNode
  | 0, f, t, a, p, c, len =>
    [{ id := c + 1
       parentId := p
       label := nodeLabel 1 f t a
       n := 1
       fromPeg := f
       toPeg := t
       auxPeg := a
       childrenIds := []
       firstStepIndex := len
       lastStepIndex := some (len + 2) }]
  | k + 1, f, t, a, p, c, len =>
    { id := c + 1
      parentId := p
      label := nodeLabel (k + 2) f t a
      n := k + 2
      fromPeg := f
      toPeg := t
      auxPeg := a
      childrenIds := [c + 2, c + 2 ^ (k + 1) + 1]
      firstStepIndex := len
      lastStepIndex := some (len + 2 * traceLength k + 5) } ::
    (callNodes k f a t (some (c + 1)) (c + 1) (len + 2) ++
      callNodes k a t f (some (c + 1)) (c + 2 ^ (k + 1)) (len + traceLength k + 5))

/-- What the step indices of node `v` have to satisfy with respect to a stretch
`X` of the trace that starts at absolute index `L0`: `firstStepIndex` points at
the `entering_call` step of `v`, `lastStepIndex` is set and points at the
returning step of `v`, and every step of `X` that is active for `v` lies
between the two. -/
def SpanOK (L0 : Nat) (X : List Step) (v : TreeNode) : Prop :=
  ∃ l, v.lastStepIndex = some l ∧ L0 ≤ v.firstStepIndex ∧ v.firstStepIndex < l ∧
    (∃ st, X[v.firstStepIndex - L0]? = some st ∧ st.nodePhase = .entering_call ∧
      st.isCall = true ∧ st.activeNodeId = some v.id) ∧
    (∃ st, X[l - L0]? = some st ∧
      (st.nodePhase = .returning_base ∨ st.nodePhase = .returning_N) ∧
      st.isReturn = true ∧ st.activeNodeId = some v.id) ∧
    ∀ i st, X[i]? = some st → st.activeNodeId = some v.id →
      v.firstStepIndex ≤ L0 + i ∧ L0 + i ≤ l

/-- The cursor stays between -1 and the last index, and a scheduled interval
callback closes over the `allSteps` that are currently stored. -/
def NavInv (s : AppState) : Prop :=
  -1 ≤ s.currentStepIndex ∧ s.currentStepIndex ≤ (s.allSteps.length : Int) - 1 ∧
    (s.intervalLive = true → s.intervalId = some s.allSteps)

/-- The state after Start/Reset with one disk: five steps, cursor 0. -/
def resetOneDisk : AppState :=
  handleStartReset (setNumDisks 1 initialAppState)

/-- The state after Start/Reset with two disks and thirteen forward steps: the
cursor stands on the last index of the trace. -/
def lastIndexTwoDisks : AppState :=
  runActions initialAppState ([.setNumDisks 2, .startReset] ++ List.replicate 13 .stepForward)

/-- How the rods of a step follow from the rods `prev` recorded one step
earlier: a step without move descriptor repeats them and has no move phase; a
step with descriptor `{disk, from, to}` has a move phase, `disk` is the top
disk of `from` in `prev`, and its rods are `prev` with that disk taken off
`from` and put on top of `to`. -/
def StepFollows (prev : Rods) (st : Step) : Prop :=
  match st.moveDetails with
  | none => st.rods = prev ∧ isMovePhase st.nodePhase = false
  | some m =>
    isMovePhase st.nodePhase = true ∧
      ∃ d rest, m.disk = some d ∧ prev.get m.fromPeg = rest ++ [d] ∧
        st.rods = (prev.set m.fromPeg rest).set m.toPeg
          ((prev.set m.fromPeg rest).get m.toPeg ++ [d])

/-- Every step of the list follows from the one before it, the first one from
the rods `r`. -/
def Linked : Rods → List Step → Prop
  | _, [] => True
  | r, st :: rest => StepFollows r st ∧ Linked st.rods rest

/-- The rods of the last step of the list, `r` for the empty list. -/
def lastRods (r : Rods) (X : List Step) : Rods :=
  match X.getLast? with
  | some st => st.rods
  | none => r

/-- The steps of a trace that are active for node `id` and carry a move
descriptor. -/
def movesOfNode (id : Nat) (steps : List Step) : List Step :=
  steps.filter fun st => decide (st.activeNodeId = some id) && st.moveDetails.isSome

/-- What the stretch `X` of the trace has to record for node `v`: exactly one
step of `v` with a move descriptor; the descriptor names disk `v.n` and the rods
`v.from`, `v.to`; its phase is `processing_move_base` for `v.n = 1` and
`processing_move_N_done` otherwise, and in the latter case the step right
before it is the `processing_move_N` step of `v` whose description announces
the move of disk `v.n` from `v.from` to `v.to`. -/
def MoveOK (X : List Step) (v : TreeNode) : Prop :=
  ∃ st, movesOfNode v.id X = [st] ∧
    st.moveDetails = some { disk := some v.n, fromPeg := v.fromPeg, toPeg := v.toPeg } ∧
    (v.n = 1 → st.nodePhase = .processing_move_base) ∧
    (1 < v.n → st.nodePhase = .processing_move_N_done ∧
      ∃ L R prev, X = L ++ [prev, st] ++ R ∧ prev.nodePhase = .processing_move_N ∧
        prev.activeNodeId = some v.id ∧
        prev.description = bigMoveDescription v.n v.fromPeg v.toPeg v.auxPeg)

/-- The call signature `towerOfHanoi(n, 'from', 'to', 'aux')` of a node. -/
def nodeSignature (nd : TreeNode) : String :=
  callSignature nd.n nd.fromPeg nd.toPeg nd.auxPeg

/-- The list `path` is a chain of nodes of `tree` along the parent links: the
first node has `parent` as its `parentId`, and every further node has the node
before it as its parent. With `parent = none` the chain starts at a root. -/
def ParentChain (tree : List TreeNode) : Option Nat → List TreeNode → Prop
  | _, [] => True
  | parent, nd :: rest =>
    nd ∈ tree ∧ nd.parentId = parent ∧ ParentChain tree (some nd.id) rest

/-- The phase of a returning step. -/
def isReturning (ph : Phase) : Bool :=
  decide (ph = .returning_base ∨ ph = .returning_N)

/-- The call stack recorded in `st` is `cs` followed by the signatures of a
parent chain of `tree` that starts below `parent` and ends at the active node
of `st`; on a returning step the last signature is already gone. -/
def StackOK (tree : List TreeNode) (parent : Option Nat) (cs : List String) (st : Step) :
    Prop :=
  ∃ path last, ParentChain tree parent path ∧ path.getLast? = some last ∧
    st.activeNodeId = some last.id ∧
    st.callStack =
      cs ++ (if isReturning st.nodePhase then path.dropLast else path).map nodeSignature

/-- The node of the call itself, the first entry of `callNodes`. -/
def rootNode : Nat → Peg → Peg → Peg → Option Nat → Nat → Nat → TreeNode
  | 0, f, t, a, p, c, len =>
    { id := c + 1
      parentId := p
      label := nodeLabel 1 f t a
      n := 1
      fromPeg := f
      toPeg := t
      auxPeg := a
      childrenIds := []
      firstStepIndex := len
      lastStepIndex := some (len + 2) }
  | k + 1, f, t, a, p, c, len =>
    { id := c + 1
      parentId := p
      label := nodeLabel (k + 2) f t a
      n := k + 2
      fromPeg := f
      toPeg := t
      auxPeg := a
      childrenIds := [c + 2, c + 2 ^ (k + 1) + 1]
      firstStepIndex := len
      lastStepIndex := some (len + 2 * traceLength k + 5) }

/-! ## Unfolding the recursion

`tohRecursive` returns for every positive count. `tohRun k` names the state it
returns for `count = k + 1`, and the two equations below replay the body of the
source function on it. -/

theorem tohRecursive_succ (k : Nat) (f t a : Peg) (p : Option Nat) (s : GenState) :
    tohRecursive (k + 1) f t a p s = some (tohRun k f t a p s) := by
  induction k generalizing f t a p s with
  | zero => simp [tohRun, tohRecursive]
  | succ k ih =>
    have h : tohRecursive (k + 1 + 1) f t a p s =
        some (returnCall (k + 2) f t a (s.nodeIdCounter + 1) .returning_N
          (tohRun k a t f (some (s.nodeIdCounter + 1))
            (midState (k + 2) f t a (s.nodeIdCounter + 1)
              (tohRun k f a t (some (s.nodeIdCounter + 1)) (preState (k + 2) f t a p s))))) := by
      rw [tohRecursive]
      simp only [Nat.add_left_eq_self, Nat.succ_ne_zero, if_false, ih]
      rfl
    simp [tohRun, h]

theorem tohRun_zero (f t a : Peg) (p : Option Nat) (s : GenState) :
    tohRun 0 f t a p s =
      returnCall 1 f t a (s.nodeIdCounter + 1) .returning_base
        (performMove f t (s.nodeIdCounter + 1) .processing_move_base (enterCall 1 f t a p s)) := by
  simp [tohRun, tohRecursive]

theorem tohRun_succ (k : Nat) (f t a : Peg) (p : Option Nat) (s : GenState) :
    tohRun (k + 1) f t a p s =
      returnCall (k + 2) f t a (s.nodeIdCounter + 1) .returning_N
        (tohRun k a t f (some (s.nodeIdCounter + 1))
          (midState (k + 2) f t a (s.nodeIdCounter + 1)
            (tohRun k f a t (some (s.nodeIdCounter + 1)) (preState (k + 2) f t a p s)))) := by
  have h := tohRecursive_succ (k + 1) f t a p s
  rw [tohRecursive] at h
  simp only [Nat.add_left_eq_self, Nat.succ_ne_zero, if_false, tohRecursive_succ] at h
  exact (Option.some.inj h).symm

/-! ## The fields of the intermediate states -/

@[simp] theorem recordStep_steps (d : String) (i : Option Nat) (ph : Phase)
    (md : Option MoveDetails) (c r : Bool) (s : GenState) :
    (recordStep d i ph md c r s).steps = s.steps ++ [snapshot d i ph md c r s] := rfl

@[simp] theorem recordStep_callStack (d : String) (i : Option Nat) (ph : Phase)
    (md : Option MoveDetails) (c r : Bool) (s : GenState) :
    (recordStep d i ph md c r s).callStack = s.callStack := rfl

@[simp] theorem recordStep_tempRods (d : String) (i : Option Nat) (ph : Phase)
    (md : Option MoveDetails) (c r : Bool) (s : GenState) :
    (recordStep d i ph md c r s).tempRods = s.tempRods := rfl

@[simp] theorem recordStep_nodeIdCounter (d : String) (i : Option Nat) (ph : Phase)
    (md : Option MoveDetails) (c r : Bool) (s : GenState) :
    (recordStep d i ph md c r s).nodeIdCounter = s.nodeIdCounter := rfl

@[simp] theorem recordStep_nodes (d : String) (i : Option Nat) (ph : Phase)
    (md : Option MoveDetails) (c r : Bool) (s : GenState) :
    (recordStep d i ph md c r s).generatedTreeNodes = s.generatedTreeNodes := rfl

@[simp] theorem enterCall_steps (count : Nat) (f t a : Peg) (p : Option Nat) (s : GenState) :
    (enterCall count f t a p s).steps =
      s.steps ++ [callStep count f t a (s.nodeIdCounter + 1) (enterCall count f t a p s)] := rfl

@[simp] theorem enterCall_callStack (count : Nat) (f t a : Peg) (p : Option Nat) (s : GenState) :
    (enterCall count f t a p s).callStack = s.callStack ++ [callSignature count f t a] := rfl

@[simp] theorem enterCall_tempRods (count : Nat) (f t a : Peg) (p : Option Nat) (s : GenState) :
    (enterCall count f t a p s).tempRods = s.tempRods := rfl

@[simp] theorem enterCall_nodeIdCounter (count : Nat) (f t a : Peg) (p : Option Nat)
    (s : GenState) : (enterCall count f t a p s).nodeIdCounter = s.nodeIdCounter + 1 := rfl

@[simp] theorem enterCall_nodes (count : Nat) (f t a : Peg) (p : Option Nat) (s : GenState) :
    (enterCall count f t a p s).generatedTreeNodes =
      pushChild p (s.nodeIdCounter + 1) (s.generatedTreeNodes ++ [newNode count f t a p s]) := rfl

@[simp] theorem performMove_steps (f t : Peg) (id : Nat) (ph : Phase) (s : GenState) :
    (performMove f t id ph s).steps =
      s.steps ++ [moveStep f t id ph s (performMove f t id ph s)] := rfl

@[simp] theorem performMove_callStack (f t : Peg) (id : Nat) (ph : Phase) (s : GenState) :
    (performMove f t id ph s).callStack = s.callStack := rfl

@[simp] theorem performMove_tempRods (f t : Peg) (id : Nat) (ph : Phase) (s : GenState) :
    (performMove f t id ph s).tempRods = popPush f t s.tempRods := rfl

@[simp] theorem performMove_nodeIdCounter (f t : Peg) (id : Nat) (ph : Phase) (s : GenState) :
    (performMove f t id ph s).nodeIdCounter = s.nodeIdCounter := rfl

@[simp] theorem performMove_nodes (f t : Peg) (id : Nat) (ph : Phase) (s : GenState) :
    (performMove f t id ph s).generatedTreeNodes = s.generatedTreeNodes := rfl

@[simp] theorem returnCall_steps (count : Nat) (f t a : Peg) (id : Nat) (ph : Phase)
    (s : GenState) :
    (returnCall count f t a id ph s).steps =
      s.steps ++ [returnStep count f t a id ph (returnCall count f t a id ph s)] := rfl

@[simp] theorem returnCall_callStack (count : Nat) (f t a : Peg) (id : Nat) (ph : Phase)
    (s : GenState) : (returnCall count f t a id ph s).callStack = s.callStack.dropLast := rfl

@[simp] theorem returnCall_tempRods (count : Nat) (f t a : Peg) (id : Nat) (ph : Phase)
    (s : GenState) : (returnCall count f t a id ph s).tempRods = s.tempRods := rfl

@[simp] theorem returnCall_nodeIdCounter (count : Nat) (f t a : Peg) (id : Nat) (ph : Phase)
    (s : GenState) : (returnCall count f t a id ph s).nodeIdCounter = s.nodeIdCounter := rfl

@[simp] theorem returnCall_nodes (count : Nat) (f t a : Peg) (id : Nat) (ph : Phase)
    (s : GenState) :
    (returnCall count f t a id ph s).generatedTreeNodes =
      setLastStepIndex id s.steps.length s.generatedTreeNodes := rfl

@[simp] theorem preState_steps (count : Nat) (f t a : Peg) (p : Option Nat) (s : GenState) :
    (preState count f t a p s).steps =
      s.steps ++ [callStep count f t a (s.nodeIdCounter + 1) (enterCall count f t a p s),
        plainStep (firstCallDescription count f t a) (s.nodeIdCounter + 1) .before_recursion_1
          (preState count f t a p s)] := by
  simp [preState, plainStep, snapshot]

@[simp] theorem preState_callStack (count : Nat) (f t a : Peg) (p : Option Nat) (s : GenState) :
    (preState count f t a p s).callStack = s.callStack ++ [callSignature count f t a] := rfl

@[simp] theorem preState_tempRods (count : Nat) (f t a : Peg) (p : Option Nat) (s : GenState) :
    (preState count f t a p s).tempRods = s.tempRods := rfl

@[simp] theorem preState_nodeIdCounter (count : Nat) (f t a : Peg) (p : Option Nat)
    (s : GenState) : (preState count f t a p s).nodeIdCounter = s.nodeIdCounter + 1 := rfl

@[simp] theorem preState_nodes (count : Nat) (f t a : Peg) (p : Option Nat) (s : GenState) :
    (preState count f t a p s).generatedTreeNodes =
      pushChild p (s.nodeIdCounter + 1) (s.generatedTreeNodes ++ [newNode count f t a p s]) := rfl

@[simp] theorem midState_steps (count : Nat) (f t a : Peg) (id : Nat) (s3 : GenState) :
    (midState count f t a id s3).steps =
      s3.steps ++ [plainStep (bigMoveDescription count f t a) id .processing_move_N s3,
        moveStep f t id .processing_move_N_done s3 (midState count f t a id s3),
        plainStep (secondCallDescription count f t a) id .before_recursion_2
          (midState count f t a id s3)] := by
  simp [midState, plainStep, moveStep, snapshot, diskToMove, performMove, moveDisk]

@[simp] theorem midState_callStack (count : Nat) (f t a : Peg) (id : Nat) (s3 : GenState) :
    (midState count f t a id s3).callStack = s3.callStack := rfl

@[simp] theorem midState_tempRods (count : Nat) (f t a : Peg) (id : Nat) (s3 : GenState) :
    (midState count f t a id s3).tempRods = popPush f t s3.tempRods := rfl

@[simp] theorem midState_nodeIdCounter (count : Nat) (f t a : Peg) (id : Nat) (s3 : GenState) :
    (midState count f t a id s3).nodeIdCounter = s3.nodeIdCounter := rfl

@[simp] theorem midState_nodes (count : Nat) (f t a : Peg) (id : Nat) (s3 : GenState) :
    (midState count f t a id s3).generatedTreeNodes = s3.generatedTreeNodes := rfl

/-! ## Frame of one call: call stack, id counter, appended steps -/

theorem tohRun_callStack (k : Nat) (f t a : Peg) (p : Option Nat) (s : GenState) :
    (tohRun k f t a p s).callStack = s.callStack := by
  induction k generalizing f t a p s with
  | zero => simp [tohRun_zero]
  | succ k ih => simp [tohRun_succ, ih]

theorem tohRun_nodeIdCounter (k : Nat) (f t a : Peg) (p : Option Nat) (s : GenState) :
    (tohRun k f t a p s).nodeIdCounter = s.nodeIdCounter + (2 ^ (k + 1) - 1) := by
  induction k generalizing f t a p s with
  | zero => simp [tohRun_zero]
  | succ k ih =>
    simp only [tohRun_succ, returnCall_nodeIdCounter, ih, midState_nodeIdCounter,
      preState_nodeIdCounter]
    have h : 1 ≤ 2 ^ (k + 1) := Nat.one_le_two_pow
    have h2 : 2 ^ (k + 1 + 1) = 2 * 2 ^ (k + 1) := by ring
    omega

theorem tohRun_steps_prefix (k : Nat) (f t a : Peg) (p : Option Nat) (s : GenState) :
    s.steps <+: (tohRun k f t a p s).steps := by
  induction k generalizing f t a p s with
  | zero =>
    rw [tohRun_zero, returnCall_steps, performMove_steps, enterCall_steps]
    simp only [List.append_assoc]
    exact List.prefix_append _ _
  | succ k ih =>
    rw [tohRun_succ, returnCall_steps]
    refine List.IsPrefix.trans ?_ (List.prefix_append _ _)
    refine List.IsPrefix.trans ?_ (ih _ _ _ _ _)
    rw [midState_steps]
    refine List.IsPrefix.trans ?_ (List.prefix_append _ _)
    refine List.IsPrefix.trans ?_ (ih _ _ _ _ _)
    rw [preState_steps]
    exact List.prefix_append _ _

theorem drop_length_of_eq_append {α : Type} {l X r : List α} (h : r = l ++ X) :
    r.drop l.length = X := by
  subst h
  exact List.drop_left _ _

theorem tohRun_steps (k : Nat) (f t a : Peg) (p : Option Nat) (s : GenState) :
    (tohRun k f t a p s).steps = s.steps ++ newSteps k f t a p s := by
  obtain ⟨X, h⟩ := tohRun_steps_prefix k f t a p s
  rw [newSteps, ← h, List.drop_left]

theorem newSteps_zero (f t a : Peg) (p : Option Nat) (s : GenState) :
    newSteps 0 f t a p s =
      [callStep 1 f t a (s.nodeIdCounter + 1) (enterCall 1 f t a p s),
       moveStep f t (s.nodeIdCounter + 1) .processing_move_base (enterCall 1 f t a p s)
         (performMove f t (s.nodeIdCounter + 1) .processing_move_base (enterCall 1 f t a p s)),
       returnStep 1 f t a (s.nodeIdCounter + 1) .returning_base (tohRun 0 f t a p s)] := by
  simp [newSteps, tohRun_zero]

theorem newSteps_succ (k : Nat) (f t a : Peg) (p : Option Nat) (s : GenState) :
    newSteps (k + 1) f t a p s =
      [callStep (k + 2) f t a (s.nodeIdCounter + 1) (enterCall (k + 2) f t a p s),
       plainStep (firstCallDescription (k + 2) f t a) (s.nodeIdCounter + 1) .before_recursion_1
         (preState (k + 2) f t a p s)] ++
      newSteps k f a t (some (s.nodeIdCounter + 1)) (preState (k + 2) f t a p s) ++
      [plainStep (bigMoveDescription (k + 2) f t a) (s.nodeIdCounter + 1) .processing_move_N
         (tohRun k f a t (some (s.nodeIdCounter + 1)) (preState (k + 2) f t a p s)),
       moveStep f t (s.nodeIdCounter + 1) .processing_move_N_done
         (tohRun k f a t (some (s.nodeIdCounter + 1)) (preState (k + 2) f t a p s))
         (midState (k + 2) f t a (s.nodeIdCounter + 1)
           (tohRun k f a t (some (s.nodeIdCounter + 1)) (preState (k + 2) f t a p s))),
       plainStep (secondCallDescription (k + 2) f t a) (s.nodeIdCounter + 1) .before_recursion_2
         (midState (k + 2) f t a (s.nodeIdCounter + 1)
           (tohRun k f a t (some (s.nodeIdCounter + 1)) (preState (k + 2) f t a p s)))] ++
      newSteps k a t f (some (s.nodeIdCounter + 1))
        (midState (k + 2) f t a (s.nodeIdCounter + 1)
          (tohRun k f a t (some (s.nodeIdCounter + 1)) (preState (k + 2) f t a p s))) ++
      [returnStep (k + 2) f t a (s.nodeIdCounter + 1) .returning_N (tohRun (k + 1) f t a p s)] := by
  apply drop_length_of_eq_append
  rw [tohRun_succ, returnCall_steps, tohRun_steps, midState_steps, tohRun_steps,
    preState_steps]
  simp only [List.append_assoc, List.cons_append, List.nil_append]

/-! ## The generator in terms of one top-level call -/

@[simp] theorem startState_steps (n : Nat) : (startState n).steps = [initialStep n] := rfl

@[simp] theorem startState_callStack (n : Nat) : (startState n).callStack = [] := rfl

@[simp] theorem startState_tempRods (n : Nat) :
    (startState n).tempRods = { A := pushDisks n, B := [], C := [] } := rfl

@[simp] theorem startState_nodeIdCounter (n : Nat) : (startState n).nodeIdCounter = 0 := rfl

@[simp] theorem startState_nodes (n : Nat) : (startState n).generatedTreeNodes = [] := rfl

theorem generate_zero :
    generateTowerOfHanoiSteps 0 =
      some { steps := [initialStep 0, finishedStep (startState 0)], treeStructure := [] } := rfl

theorem generate_succ (n : Nat) :
    generateTowerOfHanoiSteps (n + 1) =
      some { steps := initialStep (n + 1) :: (newSteps n .A .C .B none (startState (n + 1)) ++
                [finishedStep (tohRun n .A .C .B none (startState (n + 1)))])
             treeStructure := (tohRun n .A .C .B none (startState (n + 1))).generatedTreeNodes } := by
  have h : generateTowerOfHanoiSteps (n + 1) =
      match tohRecursive (n + 1) .A .C .B none (startState (n + 1)) with
      | none => none
      | some s1 =>
        some { steps := (recordStep "Algorithm finished." none .finished none false false s1).steps
               treeStructure := s1.generatedTreeNodes } := by
    simp [generateTowerOfHanoiSteps, startState]
  rw [h, tohRecursive_succ]
  simp [tohRun_steps, finishedStep]

/-! ## Phase tags -/

@[simp] theorem snapshot_nodePhase (d : String) (i : Option Nat) (ph : Phase)
    (md : Option MoveDetails) (c r : Bool) (s : GenState) :
    (snapshot d i ph md c r s).nodePhase = ph := rfl

@[simp] theorem snapshot_rods (d : String) (i : Option Nat) (ph : Phase)
    (md : Option MoveDetails) (c r : Bool) (s : GenState) :
    (snapshot d i ph md c r s).rods = s.tempRods := rfl

@[simp] theorem snapshot_callStack (d : String) (i : Option Nat) (ph : Phase)
    (md : Option MoveDetails) (c r : Bool) (s : GenState) :
    (snapshot d i ph md c r s).callStack = s.callStack := rfl

@[simp] theorem snapshot_moveDetails (d : String) (i : Option Nat) (ph : Phase)
    (md : Option MoveDetails) (c r : Bool) (s : GenState) :
    (snapshot d i ph md c r s).moveDetails = md := rfl

@[simp] theorem snapshot_activeNodeId (d : String) (i : Option Nat) (ph : Phase)
    (md : Option MoveDetails) (c r : Bool) (s : GenState) :
    (snapshot d i ph md c r s).activeNodeId = i := rfl

@[simp] theorem snapshot_isCall (d : String) (i : Option Nat) (ph : Phase)
    (md : Option MoveDetails) (c r : Bool) (s : GenState) :
    (snapshot d i ph md c r s).isCall = c := rfl

@[simp] theorem snapshot_isReturn (d : String) (i : Option Nat) (ph : Phase)
    (md : Option MoveDetails) (c r : Bool) (s : GenState) :
    (snapshot d i ph md c r s).isReturn = r := rfl

theorem newSteps_phases (k : Nat) (f t a : Peg) (p : Option Nat) (s : GenState) :
    (newSteps k f t a p s).map (fun st => st.nodePhase) = phaseSeq (k + 1) := by
  induction k generalizing f t a p s with
  | zero => simp [newSteps_zero, phaseSeq, callStep, moveStep, returnStep]
  | succ k ih =>
    simp [newSteps_succ, phaseSeq, callStep, moveStep, returnStep, plainStep, ih]

theorem phaseSeq_moves (k : Nat) :
    ((phaseSeq k).filter isMovePhase).length = 2 ^ k - 1 := by
  induction k using Nat.strong_induction_on with
  | _ k ih =>
    match k with
    | 0 => rfl
    | 1 => rfl
    | k + 2 =>
      have h := ih (k + 1) (by omega)
      have h1 : 1 ≤ 2 ^ (k + 1) := Nat.one_le_two_pow
      have h2 : 2 ^ (k + 2) = 2 * 2 ^ (k + 1) := by ring
      simp only [phaseSeq, List.filter_append, List.length_append, h]
      simp [isMovePhase]
      omega

theorem filter_nodePhase_length (p : Phase → Bool) (l : List Step) :
    (l.filter fun st => p st.nodePhase).length =
      ((l.map fun st => st.nodePhase).filter p).length := by
  induction l with
  | nil => rfl
  | cons x xs ih =>
    by_cases h : p x.nodePhase <;> simp [List.filter_cons, h, ih]

/-- C7: for every N the phase tags of the generated trace are `initial_setup`,
then the sequence S(N), then `finished`; for N = 1 they are exactly
initial_setup, entering_call, processing_move_base, returning_base, finished. -/
theorem trace_phase_sequence :
    (∀ N : Nat, ∃ g, generateTowerOfHanoiSteps N = some g ∧
      g.steps.map (fun st => st.nodePhase) = [Phase.initial_setup] ++ phaseSeq N ++ [.finished]) ∧
    (generateTowerOfHanoiSteps 1).map (fun g => g.steps.map fun st => st.nodePhase.name) =
      some ["initial_setup", "entering_call", "processing_move_base", "returning_base",
        "finished"] := by
  constructor
  · intro N
    cases N with
    | zero => exact ⟨_, generate_zero, rfl⟩
    | succ n =>
      refine ⟨_, generate_succ n, ?_⟩
      simp [newSteps_phases, initialStep, finishedStep]
  · have e : ∀ l : List Step, l.map (fun st => st.nodePhase.name) =
        (l.map fun st => st.nodePhase).map Phase.name := fun l => by
      simp [List.map_map, Function.comp_def]
    rw [generate_succ, Option.map_some', e]
    simp only [List.map_cons, List.map_append, newSteps_phases, List.map_nil]
    rfl

/-- C1: for every N the generated trace holds exactly 2^N - 1 steps whose phase
is `processing_move_base` or `processing_move_N_done` (none for N = 0). -/
theorem move_step_count (N : Nat) :
    ∃ g, generateTowerOfHanoiSteps N = some g ∧
      (g.steps.filter fun st =>
        decide (st.nodePhase = .processing_move_base ∨
          st.nodePhase = .processing_move_N_done)).length = 2 ^ N - 1 := by
  cases N with
  | zero => exact ⟨_, generate_zero, rfl⟩
  | succ n =>
    refine ⟨_, generate_succ n, ?_⟩
    have h := filter_nodePhase_length isMovePhase
      (initialStep (n + 1) :: (newSteps n .A .C .B none (startState (n + 1)) ++
        [finishedStep (tohRun n .A .C .B none (startState (n + 1)))]))
    have hi : isMovePhase .initial_setup = false := rfl
    have hf : isMovePhase .finished = false := rfl
    have h2 := phaseSeq_moves (n + 1)
    simp only [List.map_cons, List.map_append, newSteps_phases, List.map_nil] at h
    simp only [isMovePhase] at h
    rw [h]
    simp [initialStep, finishedStep, List.filter_cons, List.filter_append, h2, hi, hf]

/-! ## Rods: reading, writing, one pop-and-push -/

@[simp] theorem Rods.get_set_same (r : Rods) (p : Peg) (l : List Nat) :
    (r.set p l).get p = l := by
  cases p <;> rfl

theorem Rods.get_set_ne (r : Rods) {p q : Peg} (l : List Nat) (h : p ≠ q) :
    (r.set p l).get q = r.get q := by
  cases p <;> cases q <;> first | rfl | exact absurd rfl h

theorem peg_cases {f t a : Peg} (hft : f ≠ t) (hfa : f ≠ a) (hta : t ≠ a) (q : Peg) :
    q = f ∨ q = t ∨ q = a := by
  cases f <;> cases t <;> cases a <;> cases q <;> simp_all

theorem popPush_get_from {f t : Peg} {r : Rods} {F : List Nat} {d : Nat} (hft : f ≠ t)
    (h : r.get f = F ++ [d]) : (popPush f t r).get f = F := by
  simp [popPush, h, Rods.get_set_ne _ _ (Ne.symm hft)]

theorem popPush_get_to {f t : Peg} {r : Rods} {F : List Nat} {d : Nat} (hft : f ≠ t)
    (h : r.get f = F ++ [d]) : (popPush f t r).get t = r.get t ++ [d] := by
  simp [popPush, h, Rods.get_set_ne _ _ hft]

theorem popPush_get_other {f t a : Peg} {r : Rods} {F : List Nat} {d : Nat} (hfa : f ≠ a)
    (hta : t ≠ a) (h : r.get f = F ++ [d]) : (popPush f t r).get a = r.get a := by
  simp [popPush, h, Rods.get_set_ne _ _ hfa, Rods.get_set_ne _ _ hta]

theorem popPush_diskCount (f t : Peg) (r : Rods) (d : Nat) :
    diskCount (popPush f t r) d = diskCount r d := by
  rcases List.eq_nil_or_concat (r.get f) with h | ⟨F, x, h⟩
  · cases f <;> cases t <;> simp_all [popPush, Rods.get, Rods.set, diskCount]
  · rw [List.concat_eq_append] at h
    cases f <;> cases t <;>
      simp_all [popPush, Rods.get, Rods.set, diskCount, List.count_append, List.count_cons,
        List.count_nil] <;>
      omega

theorem mem_pushDisks {n x : Nat} : x ∈ pushDisks n ↔ 1 ≤ x ∧ x ≤ n := by
  induction n with
  | zero => simp [pushDisks]; omega
  | succ n ih => simp [pushDisks, ih]; omega

theorem pairwise_pushDisks (n : Nat) : (pushDisks n).Pairwise (· > ·) := by
  induction n with
  | zero => simp [pushDisks]
  | succ n ih =>
    simp only [pushDisks, List.pairwise_cons]
    refine ⟨fun x hx => ?_, ih⟩
    have := (mem_pushDisks.mp hx).2
    omega

theorem count_pushDisks (n d : Nat) :
    (pushDisks n).count d = if 1 ≤ d ∧ d ≤ n then 1 else 0 := by
  induction n with
  | zero =>
    rw [if_neg (by omega)]
    rfl
  | succ n ih =>
    simp only [pushDisks, List.count_cons, ih, beq_iff_eq]
    split_ifs <;> omega

theorem pushDisks_succ_eq_concat (k : Nat) :
    pushDisks (k + 2) = [k + 2] ++ pushDisks (k + 1) := rfl

/-! ## The Hanoi configuration before and after one call -/

theorem pairwise_append_pushDisks {L : List Nat} {n : Nat} (hs : L.Pairwise (· > ·))
    (hb : ∀ x ∈ L, n < x) : (L ++ pushDisks n).Pairwise (· > ·) := by
  rw [List.pairwise_append]
  refine ⟨hs, pairwise_pushDisks n, fun x hx y hy => ?_⟩
  have := hb x hx
  have := (mem_pushDisks.mp hy).2
  show x > y
  omega

theorem Ready.sorted {k : Nat} {f t a : Peg} {r : Rods} {F : List Nat}
    (h : Ready k f t a r F) : Sorted r := by
  intro q
  rcases peg_cases h.hft h.hfa h.hta q with rfl | rfl | rfl
  · rw [h.src]
    exact pairwise_append_pushDisks h.sortF h.bigF
  · exact h.sortT
  · exact h.sortA

theorem Ready.sorted_after {k : Nat} {f t a : Peg} {r r2 : Rods} {F : List Nat}
    (h : Ready k f t a r F) (hf : r2.get f = F) (ht : r2.get t = r.get t ++ pushDisks (k + 1))
    (ha : r2.get a = r.get a) : Sorted r2 := by
  intro q
  rcases peg_cases h.hft h.hfa h.hta q with rfl | rfl | rfl
  · rw [hf]
    exact h.sortF
  · rw [ht]
    exact pairwise_append_pushDisks h.sortT h.bigT
  · rw [ha]
    exact h.sortA

theorem Ready.first {k : Nat} {f t a : Peg} {r : Rods} {F : List Nat}
    (h : Ready (k + 1) f t a r F) : Ready k f a t r (F ++ [k + 2]) where
  hft := h.hfa
  hfa := h.hft
  hta := Ne.symm h.hta
  src := by rw [h.src, pushDisks_succ_eq_concat, List.append_assoc]
  bigF := by
    intro x hx
    rcases List.mem_append.mp hx with hx | hx
    · have := h.bigF x hx
      omega
    · simp at hx
      omega
  bigT := fun x hx => by have := h.bigA x hx; omega
  bigA := fun x hx => by have := h.bigT x hx; omega
  sortF := by
    rw [List.pairwise_append]
    refine ⟨h.sortF, List.pairwise_singleton _ _, fun x hx y hy => ?_⟩
    simp at hy
    have := h.bigF x hx
    show x > y
    omega
  sortT := h.sortA
  sortA := h.sortT

theorem Ready.second {k : Nat} {f t a : Peg} {r r3 : Rods} {F : List Nat}
    (h : Ready (k + 1) f t a r F) (hf : r3.get f = F ++ [k + 2])
    (ha : r3.get a = r.get a ++ pushDisks (k + 1)) (ht : r3.get t = r.get t) :
    Ready k a t f (popPush f t r3) (r.get a) where
  hft := Ne.symm h.hta
  hfa := Ne.symm h.hfa
  hta := Ne.symm h.hft
  src := by rw [popPush_get_other h.hfa h.hta hf, ha]
  bigF := fun x hx => by have := h.bigA x hx; omega
  bigT := by
    intro x hx
    rw [popPush_get_to h.hft hf, ht] at hx
    rcases List.mem_append.mp hx with hx | hx
    · have := h.bigT x hx
      omega
    · simp at hx
      omega
  bigA := by
    intro x hx
    rw [popPush_get_from h.hft hf] at hx
    have := h.bigF x hx
    omega
  sortF := h.sortA
  sortT := by
    rw [popPush_get_to h.hft hf, ht, List.pairwise_append]
    refine ⟨h.sortT, List.pairwise_singleton _ _, fun x hx y hy => ?_⟩
    simp at hy
    have := h.bigT x hx
    show x > y
    omega
  sortA := by
    rw [popPush_get_from h.hft hf]
    exact h.sortF

/-- The rods after a call: the `k + 1` top disks of `f` now lie on top of `t`. -/
theorem tohRun_rods (k : Nat) (f t a : Peg) (p : Option Nat) (s : GenState) (F : List Nat)
    (hft : f ≠ t) (hfa : f ≠ a) (hta : t ≠ a)
    (hsrc : s.tempRods.get f = F ++ pushDisks (k + 1)) :
    (tohRun k f t a p s).tempRods.get f = F ∧
    (tohRun k f t a p s).tempRods.get t = s.tempRods.get t ++ pushDisks (k + 1) ∧
    (tohRun k f t a p s).tempRods.get a = s.tempRods.get a := by
  induction k generalizing f t a p s F with
  | zero =>
    have h1 : s.tempRods.get f = F ++ [1] := hsrc
    simp only [tohRun_zero, returnCall_tempRods, performMove_tempRods, enterCall_tempRods]
    exact ⟨popPush_get_from hft h1, popPush_get_to hft h1, popPush_get_other hfa hta h1⟩
  | succ k ih =>
    have h1 : (preState (k + 2) f t a p s).tempRods.get f = (F ++ [k + 2]) ++ pushDisks (k + 1) := by
      rw [preState_tempRods, hsrc, pushDisks_succ_eq_concat, List.append_assoc]
    obtain ⟨e1, e2, e3⟩ := ih f a t (some (s.nodeIdCounter + 1)) (preState (k + 2) f t a p s)
      (F ++ [k + 2]) hfa hft (Ne.symm hta) h1
    rw [preState_tempRods] at e2 e3
    have h2 : (midState (k + 2) f t a (s.nodeIdCounter + 1)
        (tohRun k f a t (some (s.nodeIdCounter + 1)) (preState (k + 2) f t a p s))).tempRods.get a =
        s.tempRods.get a ++ pushDisks (k + 1) := by
      rw [midState_tempRods, popPush_get_other hfa hta e1, e2]
    obtain ⟨g1, g2, g3⟩ := ih a t f (some (s.nodeIdCounter + 1)) _ (s.tempRods.get a)
      (Ne.symm hta) (Ne.symm hfa) (Ne.symm hft) h2
    rw [midState_tempRods] at g2 g3
    rw [popPush_get_to hft e1, e3] at g2
    rw [popPush_get_from hft e1] at g3
    simp only [tohRun_succ, returnCall_tempRods]
    refine ⟨g3, ?_, g1⟩
    rw [g2, pushDisks_succ_eq_concat, List.append_assoc]

theorem Ready.sorted_result {k : Nat} {f t a : Peg} {F : List Nat} (p : Option Nat)
    {s : GenState} (h : Ready k f t a s.tempRods F) : Sorted (tohRun k f t a p s).tempRods := by
  obtain ⟨e1, e2, e3⟩ := tohRun_rods k f t a p s F h.hft h.hfa h.hta h.src
  exact h.sorted_after e1 e2 e3

theorem Ready.mid {k : Nat} {f t a : Peg} {F : List Nat} (p : Option Nat) {s : GenState}
    (h : Ready (k + 1) f t a s.tempRods F) :
    Ready k a t f (midState (k + 2) f t a (s.nodeIdCounter + 1)
      (tohRun k f a t (some (s.nodeIdCounter + 1)) (preState (k + 2) f t a p s))).tempRods
      (s.tempRods.get a) := by
  have h1 : Ready k f a t (preState (k + 2) f t a p s).tempRods (F ++ [k + 2]) := h.first
  obtain ⟨e1, e2, e3⟩ := tohRun_rods k f a t (some (s.nodeIdCounter + 1))
    (preState (k + 2) f t a p s) (F ++ [k + 2]) h1.hft h1.hfa h1.hta h1.src
  rw [midState_tempRods]
  exact h.second e1 e2 e3

theorem newSteps_sorted (k : Nat) (f t a : Peg) (p : Option Nat) (s : GenState) (F : List Nat)
    (h : Ready k f t a s.tempRods F) : ∀ st ∈ newSteps k f t a p s, Sorted st.rods := by
  induction k generalizing f t a p s F with
  | zero =>
    have hres := h.sorted_result p
    intro st hst
    rw [newSteps_zero] at hst
    simp only [List.mem_cons, List.mem_singleton, List.mem_nil_iff, or_false] at hst
    rcases hst with rfl | rfl | rfl
    · exact h.sorted
    · simpa [tohRun_zero] using hres
    · exact hres
  | succ k ih =>
    have h1 : Ready k f a t (preState (k + 2) f t a p s).tempRods (F ++ [k + 2]) := h.first
    have h2 := h.mid p
    intro st hst
    rw [newSteps_succ] at hst
    simp only [List.mem_append, List.mem_cons, List.mem_singleton, List.mem_nil_iff,
      or_false] at hst
    rcases hst with (((((rfl | rfl) | hst) | (rfl | rfl | rfl)) | hst) | rfl)
    · exact h.sorted
    · exact h.sorted
    · exact ih _ _ _ _ _ _ h1 st hst
    · exact h1.sorted_result _
    · exact h2.sorted
    · exact h2.sorted
    · exact ih _ _ _ _ _ _ h2 st hst
    · exact h.sorted_result p

theorem newSteps_diskCount (k : Nat) (f t a : Peg) (p : Option Nat) (s : GenState) (d : Nat) :
    diskCount (tohRun k f t a p s).tempRods d = diskCount s.tempRods d ∧
    ∀ st ∈ newSteps k f t a p s, diskCount st.rods d = diskCount s.tempRods d := by
  induction k generalizing f t a p s with
  | zero =>
    have hres : diskCount (tohRun 0 f t a p s).tempRods d = diskCount s.tempRods d := by
      simp [tohRun_zero, popPush_diskCount]
    refine ⟨hres, fun st hst => ?_⟩
    rw [newSteps_zero] at hst
    simp only [List.mem_cons, List.mem_singleton, List.mem_nil_iff, or_false] at hst
    rcases hst with rfl | rfl | rfl
    · rfl
    · simpa [tohRun_zero] using hres
    · exact hres
  | succ k ih =>
    obtain ⟨a1, b1⟩ := ih f a t (some (s.nodeIdCounter + 1)) (preState (k + 2) f t a p s)
    obtain ⟨a2, b2⟩ := ih a t f (some (s.nodeIdCounter + 1))
      (midState (k + 2) f t a (s.nodeIdCounter + 1)
        (tohRun k f a t (some (s.nodeIdCounter + 1)) (preState (k + 2) f t a p s)))
    rw [preState_tempRods] at a1 b1
    rw [midState_tempRods, popPush_diskCount, a1] at a2 b2
    have hres : diskCount (tohRun (k + 1) f t a p s).tempRods d = diskCount s.tempRods d := by
      rw [tohRun_succ, returnCall_tempRods]
      exact a2
    refine ⟨hres, fun st hst => ?_⟩
    rw [newSteps_succ] at hst
    simp only [List.mem_append, List.mem_cons, List.mem_singleton, List.mem_nil_iff,
      or_false] at hst
    rcases hst with (((((rfl | rfl) | hst) | (rfl | rfl | rfl)) | hst) | rfl)
    · rfl
    · rfl
    · exact b1 st hst
    · exact a1
    · show diskCount (popPush f t _) d = _
      rw [popPush_diskCount]
      exact a1
    · show diskCount (popPush f t _) d = _
      rw [popPush_diskCount]
      exact a1
    · exact b2 st hst
    · exact hres

theorem ready_start (n : Nat) : Ready n .A .C .B (startState (n + 1)).tempRods [] where
  hft := by decide
  hfa := by decide
  hta := by decide
  src := rfl
  bigF := by simp
  bigT := by simp [Rods.get]
  bigA := by simp [Rods.get]
  sortF := List.Pairwise.nil
  sortT := List.Pairwise.nil
  sortA := List.Pairwise.nil

theorem top_lt_of_pairwise {l : List Nat} (h : l.Pairwise (· > ·)) :
    ∀ top ∈ l.getLast?, ∀ x ∈ l.dropLast, top < x := by
  intro top htop x hx
  have e := List.dropLast_append_getLast? top htop
  rw [← e, List.pairwise_append] at h
  exact h.2.2 x hx top (by simp)

/-- C3: in every step of the generated trace each rod is strictly decreasing
from bottom to top, so its top disk is smaller than every disk beneath it, and
the three rods together hold each disk 1..N exactly once and nothing else. -/
theorem recorded_rods_valid (N : Nat) :
    ∃ g, generateTowerOfHanoiSteps N = some g ∧
      ∀ st ∈ g.steps,
        (∀ q : Peg, (st.rods.get q).Pairwise (· > ·) ∧
          ∀ top ∈ (st.rods.get q).getLast?, ∀ x ∈ (st.rods.get q).dropLast, top < x) ∧
        ∀ d : Nat, (st.rods.A ++ st.rods.B ++ st.rods.C).count d =
          if 1 ≤ d ∧ d ≤ N then 1 else 0 := by
  have key : ∀ st : Step, Sorted st.rods →
      (∀ d, diskCount st.rods d = diskCount { A := pushDisks N, B := [], C := [] } d) →
      (∀ q : Peg, (st.rods.get q).Pairwise (· > ·) ∧
          ∀ top ∈ (st.rods.get q).getLast?, ∀ x ∈ (st.rods.get q).dropLast, top < x) ∧
        ∀ d : Nat, (st.rods.A ++ st.rods.B ++ st.rods.C).count d =
          if 1 ≤ d ∧ d ≤ N then 1 else 0 := by
    intro st h1 h2
    refine ⟨fun q => ⟨h1 q, top_lt_of_pairwise (h1 q)⟩, fun d => ?_⟩
    have := h2 d
    simp only [diskCount, List.append_nil] at this
    rw [this, count_pushDisks]
  have hinit : Sorted ({ A := pushDisks N, B := [], C := [] } : Rods) := by
    intro q
    cases q
    · exact pairwise_pushDisks N
    · exact List.Pairwise.nil
    · exact List.Pairwise.nil
  cases N with
  | zero =>
    refine ⟨_, generate_zero, fun st hst => ?_⟩
    simp only [List.mem_cons, List.mem_singleton, List.mem_nil_iff, or_false] at hst
    rcases hst with rfl | rfl
    · exact key _ hinit (fun d => rfl)
    · exact key _ hinit (fun d => rfl)
  | succ n =>
    refine ⟨_, generate_succ n, fun st hst => ?_⟩
    simp only [List.mem_cons, List.mem_append, List.mem_singleton, List.mem_nil_iff,
      or_false] at hst
    rcases hst with rfl | hst | rfl
    · exact key _ hinit (fun d => rfl)
    · exact key _ (newSteps_sorted n .A .C .B none _ [] (ready_start n) st hst)
        (fun d => (newSteps_diskCount n .A .C .B none (startState (n + 1)) d).2 st hst)
    · exact key _ ((ready_start n).sorted_result none)
        (fun d => (newSteps_diskCount n .A .C .B none (startState (n + 1)) d).1)

/-! ## Replaying the recorded moves on a fresh three-rod model -/

theorem replayMoves_append (l1 l2 : List MoveDetails) (r : Rods) :
    replayMoves (l1 ++ l2) r = (replayMoves l1 r).bind (replayMoves l2) := by
  induction l1 generalizing r with
  | nil => rfl
  | cons m ms ih =>
    simp only [List.cons_append, replayMoves]
    cases replayMove m r with
    | none => rfl
    | some r2 => simpa using ih r2

theorem replayMove_eq_popPush {f t : Peg} {r : Rods} {F : List Nat} {d : Nat}
    (dd : Option Nat) (hft : f ≠ t) (h : r.get f = F ++ [d]) (hbig : ∀ x ∈ r.get t, d < x) :
    replayMove { disk := dd, fromPeg := f, toPeg := t } r = some (popPush f t r) := by
  simp only [replayMove, popPush, h, List.getLast?_concat, List.dropLast_concat,
    Rods.get_set_ne _ _ hft]
  cases hl : (r.get t).getLast? with
  | none => rfl
  | some top =>
    have : d < top := hbig top (List.mem_of_getLast?_eq_some hl)
    simp only [if_neg (Nat.lt_asymm this)]

theorem moveDescriptors_append (l1 l2 : List Step) :
    moveDescriptors (l1 ++ l2) = moveDescriptors l1 ++ moveDescriptors l2 := by
  simp [moveDescriptors, List.filterMap_append]

theorem newSteps_replay (k : Nat) (f t a : Peg) (p : Option Nat) (s : GenState) (F : List Nat)
    (h : Ready k f t a s.tempRods F) :
    replayMoves (moveDescriptors (newSteps k f t a p s)) s.tempRods =
      some (tohRun k f t a p s).tempRods := by
  induction k generalizing f t a p s F with
  | zero =>
    have h1 : s.tempRods.get f = F ++ [1] := h.src
    have hb : ∀ x ∈ s.tempRods.get t, 1 < x := fun x hx => by have := h.bigT x hx; omega
    rw [newSteps_zero]
    simp only [moveDescriptors, callStep, moveStep, returnStep, List.filterMap_cons,
      snapshot_moveDetails, List.filterMap_nil, replayMoves, enterCall_tempRods]
    rw [replayMove_eq_popPush _ h.hft h1 hb]
    simp [tohRun_zero]
  | succ k ih =>
    have h1 : Ready k f a t (preState (k + 2) f t a p s).tempRods (F ++ [k + 2]) := h.first
    have h2 := h.mid p
    have e1 := ih f a t (some (s.nodeIdCounter + 1)) (preState (k + 2) f t a p s) _ h1
    have e2 := ih a t f (some (s.nodeIdCounter + 1)) _ _ h2
    obtain ⟨g1, g2, g3⟩ := tohRun_rods k f a t (some (s.nodeIdCounter + 1))
      (preState (k + 2) f t a p s) (F ++ [k + 2]) h1.hft h1.hfa h1.hta h1.src
    rw [preState_tempRods] at e1 g3
    have hb : ∀ x ∈ (tohRun k f a t (some (s.nodeIdCounter + 1))
        (preState (k + 2) f t a p s)).tempRods.get t, k + 2 < x := by
      rw [g3]
      exact h.bigT
    have e3 := replayMove_eq_popPush
      (diskToMove f (tohRun k f a t (some (s.nodeIdCounter + 1)) (preState (k + 2) f t a p s)))
      h.hft g1 hb
    rw [newSteps_succ]
    simp only [moveDescriptors_append, replayMoves_append]
    have c1 : ∀ x y : Step, x.moveDetails = none → y.moveDetails = none →
        moveDescriptors [x, y] = [] := by
      intro x y hx hy
      simp [moveDescriptors, hx, hy]
    have c2 : ∀ x : Step, x.moveDetails = none → moveDescriptors [x] = [] := by
      intro x hx
      simp [moveDescriptors, hx]
    have c3 : ∀ x y z : Step, x.moveDetails = none → z.moveDetails = none →
        ∀ m, y.moveDetails = some m → moveDescriptors [x, y, z] = [m] := by
      intro x y z hx hz m hy
      simp [moveDescriptors, hx, hy, hz]
    rw [c1 _ _ rfl rfl, c2 _ rfl, c3 _ _ _ rfl rfl _ rfl]
    simp only [replayMoves, Option.some_bind, e1, e3, Option.bind_some]
    rw [← midState_tempRods (k + 2) f t a (s.nodeIdCounter + 1), e2]
    simp [tohRun_succ]

/-- C2: replaying the move descriptors of the generated trace, in trace order, on
a fresh model with disks N, ..., 1 on rod A never pops an empty rod and never
puts a disk on a smaller one: the replay runs to the end, and ends with all
disks on rod C. -/
theorem replay_is_legal (N : Nat) :
    ∃ g, generateTowerOfHanoiSteps N = some g ∧
      replayMoves (moveDescriptors g.steps) { A := pushDisks N, B := [], C := [] } =
        some { A := [], B := [], C := pushDisks N } := by
  cases N with
  | zero => exact ⟨_, generate_zero, rfl⟩
  | succ n =>
    refine ⟨_, generate_succ n, ?_⟩
    have h := newSteps_replay n .A .C .B none (startState (n + 1)) [] (ready_start n)
    obtain ⟨g1, g2, g3⟩ := tohRun_rods n .A .C .B none (startState (n + 1)) []
      (by decide) (by decide) (by decide) rfl
    have hfin : (tohRun n .A .C .B none (startState (n + 1))).tempRods =
        { A := [], B := [], C := pushDisks (n + 1) } := by
      cases hr : (tohRun n .A .C .B none (startState (n + 1))).tempRods with
      | mk x y z =>
        rw [hr] at g1 g2 g3
        simp only [Rods.get, startState_tempRods, List.nil_append] at g1 g2 g3
        rw [g1, g2, g3]
    have hsplit : moveDescriptors (initialStep (n + 1) ::
        (newSteps n .A .C .B none (startState (n + 1)) ++
          [finishedStep (tohRun n .A .C .B none (startState (n + 1)))])) =
        moveDescriptors (newSteps n .A .C .B none (startState (n + 1))) := by
      simp [moveDescriptors, initialStep, finishedStep, List.filterMap_append]
    simp only [hsplit]
    rw [← hfin, ← h]
    rfl

/-! ## The last move step -/

theorem startsWithProcessingMove_iff (ph : Phase) :
    startsWithProcessingMove ph = true ↔
      ph = .processing_move_base ∨ ph = .processing_move_N ∨ ph = .processing_move_N_done := by
  cases ph <;> decide

theorem processingMoveSteps_append (l1 l2 : List Step) :
    processingMoveSteps (l1 ++ l2) = processingMoveSteps l1 ++ processingMoveSteps l2 := by
  simp [processingMoveSteps, List.filter_append]

theorem getLast?_append_of_some {α : Type} (l1 : List α) {l2 : List α} {x : α}
    (h : l2.getLast? = some x) : (l1 ++ l2).getLast? = some x := by
  rw [List.getLast?_append, h]
  rfl

theorem newSteps_lastMove (k : Nat) (f t a : Peg) (p : Option Nat) (s : GenState) :
    ∃ st, (processingMoveSteps (newSteps k f t a p s)).getLast? = some st ∧
      st.rods = (tohRun k f t a p s).tempRods := by
  induction k generalizing f t a p s with
  | zero =>
    refine ⟨moveStep f t (s.nodeIdCounter + 1) .processing_move_base (enterCall 1 f t a p s)
      (performMove f t (s.nodeIdCounter + 1) .processing_move_base (enterCall 1 f t a p s)),
      ?_, ?_⟩
    · rw [newSteps_zero]
      rfl
    · simp [moveStep, tohRun_zero]
  | succ k ih =>
    obtain ⟨st, h1, h2⟩ := ih a t f (some (s.nodeIdCounter + 1))
      (midState (k + 2) f t a (s.nodeIdCounter + 1)
        (tohRun k f a t (some (s.nodeIdCounter + 1)) (preState (k + 2) f t a p s)))
    refine ⟨st, ?_, ?_⟩
    · rw [newSteps_succ, processingMoveSteps_append, processingMoveSteps_append]
      have hr : processingMoveSteps
          [returnStep (k + 2) f t a (s.nodeIdCounter + 1) .returning_N
            (tohRun (k + 1) f t a p s)] = [] := rfl
      rw [hr, List.append_nil]
      exact getLast?_append_of_some _ h1
    · rw [h2, tohRun_succ, returnCall_tempRods]

theorem finished_not_mem_phaseSeq (k : Nat) : Phase.finished ∉ phaseSeq k := by
  induction k using Nat.strong_induction_on with
  | _ k ih =>
    match k with
    | 0 => simp [phaseSeq]
    | 1 => simp [phaseSeq]
    | k + 2 =>
      have h := ih (k + 1) (by omega)
      simp [phaseSeq, h]

theorem tohRun_rods_top (n : Nat) :
    (tohRun n .A .C .B none (startState (n + 1))).tempRods =
      { A := [], B := [], C := pushDisks (n + 1) } := by
  obtain ⟨g1, g2, g3⟩ := tohRun_rods n .A .C .B none (startState (n + 1)) []
    (by decide) (by decide) (by decide) rfl
  cases hr : (tohRun n .A .C .B none (startState (n + 1))).tempRods with
  | mk x y z =>
    rw [hr] at g1 g2 g3
    simp only [Rods.get, startState_tempRods, List.nil_append] at g1 g2 g3
    rw [g1, g2, g3]

/-- C4: for every N >= 1 the last step whose phase tag starts with
`processing_move` records A = [], B = [], C = [N, ..., 1], and so does the
`finished` step, which is the last step of the trace; for N = 0 no step has
such a tag and the `finished` step records three empty rods. -/
theorem final_rods_on_destination :
    (∀ n : Nat, ∃ g, generateTowerOfHanoiSteps (n + 1) = some g ∧
      (∃ st, (processingMoveSteps g.steps).getLast? = some st ∧
        st.rods = { A := [], B := [], C := pushDisks (n + 1) }) ∧
      (∃ fin, g.steps.getLast? = some fin ∧ fin.nodePhase = .finished) ∧
      ∀ fin ∈ g.steps, fin.nodePhase = .finished →
        fin.rods = { A := [], B := [], C := pushDisks (n + 1) }) ∧
    (∃ g, generateTowerOfHanoiSteps 0 = some g ∧ processingMoveSteps g.steps = [] ∧
      (∃ fin, g.steps.getLast? = some fin ∧ fin.nodePhase = .finished) ∧
      ∀ fin ∈ g.steps, fin.nodePhase = .finished → fin.rods = { A := [], B := [], C := [] }) := by
  constructor
  · intro n
    refine ⟨_, generate_succ n, ?_, ?_, ?_⟩
    · obtain ⟨st, h1, h2⟩ := newSteps_lastMove n .A .C .B none (startState (n + 1))
      refine ⟨st, ?_, by rw [h2, tohRun_rods_top]⟩
      have e : ∀ (x y : Step) (l : List Step), x :: (l ++ [y]) = [x] ++ l ++ [y] := by
        intro x y l
        simp
      rw [e, processingMoveSteps_append, processingMoveSteps_append]
      have hr : processingMoveSteps
          [finishedStep (tohRun n .A .C .B none (startState (n + 1)))] = [] := rfl
      rw [hr, List.append_nil]
      exact getLast?_append_of_some _ h1
    · refine ⟨finishedStep (tohRun n .A .C .B none (startState (n + 1))), ?_, rfl⟩
      rw [← List.cons_append]
      exact List.getLast?_concat _
    · intro fin hfin hph
      simp only [List.mem_cons, List.mem_append, List.mem_singleton, List.mem_nil_iff,
        or_false] at hfin
      rcases hfin with rfl | hfin | rfl
      · exact Phase.noConfusion hph
      · exfalso
        apply finished_not_mem_phaseSeq (n + 1)
        rw [← newSteps_phases n .A .C .B none (startState (n + 1)), ← hph]
        exact List.mem_map_of_mem _ hfin
      · show (tohRun n .A .C .B none (startState (n + 1))).tempRods = _
        exact tohRun_rods_top n
  · refine ⟨_, generate_zero, rfl, ⟨_, rfl, rfl⟩, ?_⟩
    intro fin hfin hph
    simp only [List.mem_cons, List.mem_singleton, List.mem_nil_iff, or_false] at hfin
    rcases hfin with rfl | rfl
    · exact Phase.noConfusion hph
    · rfl

/-! ## The call tree -/

theorem newSteps_length (k : Nat) (f t a : Peg) (p : Option Nat) (s : GenState) :
    (newSteps k f t a p s).length = traceLength k := by
  induction k generalizing f t a p s with
  | zero => simp [newSteps_zero, traceLength]
  | succ k ih =>
    simp only [newSteps_succ, List.length_append, ih, List.length_cons, List.length_nil,
      traceLength]
    omega

theorem tohRun_steps_length (k : Nat) (f t a : Peg) (p : Option Nat) (s : GenState) :
    (tohRun k f t a p s).steps.length = s.steps.length + traceLength k := by
  rw [tohRun_steps, List.length_append, newSteps_length]

theorem map_update_of_ne (g : TreeNode → TreeNode) (i : Nat) (l : List TreeNode)
    (h : ∀ nd ∈ l, nd.id ≠ i) : l.map (fun nd => if nd.id = i then g nd else nd) = l := by
  induction l with
  | nil => rfl
  | cons x xs ih =>
    simp only [List.map_cons]
    rw [if_neg (h x (List.mem_cons_self _ _)),
      ih (fun nd hnd => h nd (List.mem_cons_of_mem _ hnd))]

theorem pushChild_append (p : Option Nat) (c : Nat) (l1 l2 : List TreeNode) :
    pushChild p c (l1 ++ l2) = pushChild p c l1 ++ pushChild p c l2 := by
  cases p with
  | none => rfl
  | some q => simp [pushChild]

theorem pushChild_of_ne (p : Option Nat) (c : Nat) (l : List TreeNode)
    (h : ∀ q, p = some q → ∀ nd ∈ l, nd.id ≠ q) : pushChild p c l = l := by
  cases p with
  | none => rfl
  | some q => exact map_update_of_ne _ q l (h q rfl)

theorem pushChild_id_le (p : Option Nat) (c b : Nat) (l : List TreeNode)
    (h : ∀ nd ∈ l, nd.id ≤ b) : ∀ nd ∈ pushChild p c l, nd.id ≤ b := by
  cases p with
  | none => exact h
  | some q =>
    intro nd hnd
    simp only [pushChild, List.mem_map] at hnd
    obtain ⟨nd0, h0, rfl⟩ := hnd
    have := h nd0 h0
    split_ifs <;> exact this

theorem setLastStepIndex_append (i idx : Nat) (l1 l2 : List TreeNode) :
    setLastStepIndex i idx (l1 ++ l2) = setLastStepIndex i idx l1 ++ setLastStepIndex i idx l2 := by
  simp [setLastStepIndex]

theorem setLastStepIndex_of_ne (i idx : Nat) (l : List TreeNode) (h : ∀ nd ∈ l, nd.id ≠ i) :
    setLastStepIndex i idx l = l :=
  map_update_of_ne _ i l h

theorem callNodes_id_range (k : Nat) (f t a : Peg) (p : Option Nat) (c len : Nat) :
    ∀ nd ∈ callNodes k f t a p c len, c < nd.id ∧ nd.id ≤ c + (2 ^ (k + 1) - 1) := by
  induction k generalizing f t a p c len with
  | zero =>
    intro nd hnd
    simp only [callNodes, List.mem_singleton] at hnd
    subst hnd
    simp
  | succ k ih =>
    have h1 : 1 ≤ 2 ^ (k + 1) := Nat.one_le_two_pow
    have h2 : 2 ^ (k + 1 + 1) = 2 * 2 ^ (k + 1) := by ring
    intro nd hnd
    simp only [callNodes, List.mem_cons, List.mem_append] at hnd
    rcases hnd with rfl | hnd | hnd
    · simp only
      omega
    · have := ih _ _ _ _ _ _ nd hnd
      omega
    · have := ih _ _ _ _ _ _ nd hnd
      omega

theorem tohRun_nodes (k : Nat) (f t a : Peg) (p : Option Nat) (s : GenState)
    (hinv : ∀ nd ∈ s.generatedTreeNodes, nd.id ≤ s.nodeIdCounter)
    (hp : ∀ q, p = some q → q ≤ s.nodeIdCounter) :
    (tohRun k f t a p s).generatedTreeNodes =
      pushChild p (s.nodeIdCounter + 1) s.generatedTreeNodes ++
        callNodes k f t a p s.nodeIdCounter s.steps.length := by
  induction k generalizing f t a p s with
  | zero =>
    have hN0 := pushChild_id_le p (s.nodeIdCounter + 1) _ _ hinv
    have e1 : pushChild p (s.nodeIdCounter + 1) [newNode 1 f t a p s] = [newNode 1 f t a p s] := by
      apply pushChild_of_ne
      intro q hq nd hnd
      simp only [List.mem_singleton] at hnd
      subst hnd
      have := hp q hq
      simp only [newNode]
      omega
    have e2 : setLastStepIndex (s.nodeIdCounter + 1) (s.steps.length + 2)
        (pushChild p (s.nodeIdCounter + 1) s.generatedTreeNodes) =
        pushChild p (s.nodeIdCounter + 1) s.generatedTreeNodes := by
      apply setLastStepIndex_of_ne
      intro nd hnd
      have := hN0 nd hnd
      omega
    simp only [tohRun_zero, returnCall_nodes, performMove_nodes, enterCall_nodes,
      performMove_steps, enterCall_steps, List.length_append, List.length_cons,
      List.length_nil, pushChild_append, e1, setLastStepIndex_append, e2]
    congr 1
    simp [setLastStepIndex, newNode, callNodes]
  | succ k ih =>
    have h1 : 1 ≤ 2 ^ (k + 1) := Nat.one_le_two_pow
    have hN0 := pushChild_id_le p (s.nodeIdCounter + 1) _ _ hinv
    have e1 : pushChild p (s.nodeIdCounter + 1) [newNode (k + 2) f t a p s] =
        [newNode (k + 2) f t a p s] := by
      apply pushChild_of_ne
      intro q hq nd hnd
      simp only [List.mem_singleton] at hnd
      subst hnd
      have := hp q hq
      simp only [newNode]
      omega
    have epre : (preState (k + 2) f t a p s).generatedTreeNodes =
        pushChild p (s.nodeIdCounter + 1) s.generatedTreeNodes ++ [newNode (k + 2) f t a p s] := by
      rw [preState_nodes, pushChild_append, e1]
    -- the first sub-call
    have i1 := ih f a t (some (s.nodeIdCounter + 1)) (preState (k + 2) f t a p s)
      (by
        rw [epre, preState_nodeIdCounter]
        intro nd hnd
        rcases List.mem_append.mp hnd with hnd | hnd
        · have := hN0 nd hnd
          omega
        · simp only [List.mem_singleton] at hnd
          subst hnd
          simp [newNode])
      (by
        intro q hq
        rw [preState_nodeIdCounter]
        cases hq
        exact Nat.le_refl _)
    have old1 : ∀ x, pushChild (some (s.nodeIdCounter + 1)) x
        (pushChild p (s.nodeIdCounter + 1) s.generatedTreeNodes) =
        pushChild p (s.nodeIdCounter + 1) s.generatedTreeNodes := by
      intro x
      apply pushChild_of_ne
      intro q hq nd hnd
      cases hq
      have := hN0 nd hnd
      omega
    rw [epre, preState_nodeIdCounter, preState_steps, pushChild_append, old1] at i1
    -- the second sub-call
    have c3 := tohRun_nodeIdCounter k f a t (some (s.nodeIdCounter + 1))
      (preState (k + 2) f t a p s)
    rw [preState_nodeIdCounter] at c3
    have l3 := tohRun_steps_length k f a t (some (s.nodeIdCounter + 1))
      (preState (k + 2) f t a p s)
    rw [preState_steps] at l3
    have hY1 := callNodes_id_range k f a t (some (s.nodeIdCounter + 1)) (s.nodeIdCounter + 1)
      (s.steps.length + 2)
    have i2 := ih a t f (some (s.nodeIdCounter + 1))
      (midState (k + 2) f t a (s.nodeIdCounter + 1)
        (tohRun k f a t (some (s.nodeIdCounter + 1)) (preState (k + 2) f t a p s)))
      (by
        rw [midState_nodes, midState_nodeIdCounter, i1, c3]
        intro nd hnd
        simp only [List.mem_append] at hnd
        rcases hnd with (hnd | hnd) | hnd
        · have := hN0 nd hnd
          omega
        · have := pushChild_id_le (some (s.nodeIdCounter + 1)) (s.nodeIdCounter + 1 + 1)
            (s.nodeIdCounter + 1) [newNode (k + 2) f t a p s]
            (by intro x hx; simp only [List.mem_singleton] at hx; subst hx; simp [newNode])
            nd hnd
          omega
        · have := (hY1 nd (by simpa using hnd)).2
          omega)
      (by
        intro q hq
        rw [midState_nodeIdCounter, c3]
        cases hq
        omega)
    have new1 : ∀ x, pushChild (some (s.nodeIdCounter + 1)) x
        (callNodes k f a t (some (s.nodeIdCounter + 1)) (s.nodeIdCounter + 1)
          (s.steps.length + 2)) =
        callNodes k f a t (some (s.nodeIdCounter + 1)) (s.nodeIdCounter + 1)
          (s.steps.length + 2) := by
      intro x
      apply pushChild_of_ne
      intro q hq nd hnd
      cases hq
      have := (hY1 nd hnd).1
      omega
    have hlen : ([callStep (k + 2) f t a (s.nodeIdCounter + 1) (enterCall (k + 2) f t a p s),
        plainStep (firstCallDescription (k + 2) f t a) (s.nodeIdCounter + 1) .before_recursion_1
          (preState (k + 2) f t a p s)] : List Step).length = 2 := rfl
    rw [List.length_append, hlen] at i1 l3
    rw [midState_nodes, midState_nodeIdCounter, midState_steps, i1, c3, pushChild_append,
      pushChild_append, old1, new1, List.length_append, l3] at i2
    -- the return
    have l6 := tohRun_steps_length k a t f (some (s.nodeIdCounter + 1))
      (midState (k + 2) f t a (s.nodeIdCounter + 1)
        (tohRun k f a t (some (s.nodeIdCounter + 1)) (preState (k + 2) f t a p s)))
    rw [midState_steps, List.length_append, l3] at l6
    have hY2 := callNodes_id_range k a t f (some (s.nodeIdCounter + 1))
      (s.nodeIdCounter + 1 + (2 ^ (k + 1) - 1))
      (s.steps.length + 2 + traceLength k + 3)
    rw [tohRun_succ, returnCall_nodes, i2, l6, setLastStepIndex_append,
      setLastStepIndex_append, setLastStepIndex_append,
      setLastStepIndex_of_ne _ _ _ (fun nd hnd => by have := hN0 nd hnd; omega),
      setLastStepIndex_of_ne _ _ (callNodes k f a t _ _ _)
        (fun nd hnd => by have := (hY1 nd hnd).1; omega),
      setLastStepIndex_of_ne _ _ (callNodes k a t f _ _ _)
        (fun nd hnd => by have := (hY2 nd hnd).1; omega)]
    have ec : s.nodeIdCounter + 1 + (2 ^ (k + 1) - 1) = s.nodeIdCounter + 2 ^ (k + 1) := by omega
    have el : s.steps.length + 2 + traceLength k + 3 = s.steps.length + traceLength k + 5 := by
      omega
    have el2 : s.steps.length + 2 + traceLength k + 3 + traceLength k =
        s.steps.length + 2 * traceLength k + 5 := by omega
    simp only [callNodes, ec, el, el2, List.append_assoc, List.cons_append, List.nil_append,
      List.length_cons, List.length_nil]
    congr 1
    simp [pushChild, setLastStepIndex, newNode]
    omega

theorem tree_eq_callNodes (n : Nat) :
    (tohRun n .A .C .B none (startState (n + 1))).generatedTreeNodes =
      callNodes n .A .C .B none 0 1 := by
  have h := tohRun_nodes n .A .C .B none (startState (n + 1))
    (by simp) (by simp)
  simpa [pushChild] using h

theorem callNodes_length (k : Nat) (f t a : Peg) (p : Option Nat) (c len : Nat) :
    (callNodes k f t a p c len).length = 2 ^ (k + 1) - 1 := by
  induction k generalizing f t a p c len with
  | zero => rfl
  | succ k ih =>
    have h1 : 1 ≤ 2 ^ (k + 1) := Nat.one_le_two_pow
    have h2 : 2 ^ (k + 1 + 1) = 2 * 2 ^ (k + 1) := by ring
    simp only [callNodes, List.length_cons, List.length_append, ih]
    omega

theorem callNodes_children (k : Nat) (f t a : Peg) (p : Option Nat) (c len : Nat) :
    ∀ v ∈ callNodes k f t a p c len,
      (v.childrenIds.length = 0 ∨ v.childrenIds.length = 2) ∧
      (v.childrenIds.length = 0 ↔ v.n = 1) := by
  induction k generalizing f t a p c len with
  | zero =>
    intro v hv
    simp only [callNodes, List.mem_singleton] at hv
    subst hv
    simp
  | succ k ih =>
    intro v hv
    simp only [callNodes, List.mem_cons, List.mem_append] at hv
    rcases hv with rfl | hv | hv
    · simp
    · exact ih _ _ _ _ _ _ v hv
    · exact ih _ _ _ _ _ _ v hv

/-- C5: for every N >= 1 the generated tree has exactly 2^N - 1 nodes, every node
has no child or exactly two children, and it has none exactly when its count
parameter `n` is 1. -/
theorem tree_size_and_arity (n : Nat) :
    ∃ g, generateTowerOfHanoiSteps (n + 1) = some g ∧
      g.treeStructure.length = 2 ^ (n + 1) - 1 ∧
      ∀ v ∈ g.treeStructure,
        (v.childrenIds.length = 0 ∨ v.childrenIds.length = 2) ∧
        (v.childrenIds.length = 0 ↔ v.n = 1) := by
  refine ⟨_, generate_succ n, ?_, ?_⟩
  · show (tohRun n .A .C .B none (startState (n + 1))).generatedTreeNodes.length = _
    rw [tree_eq_callNodes, callNodes_length]
  · show ∀ v ∈ (tohRun n .A .C .B none (startState (n + 1))).generatedTreeNodes, _
    rw [tree_eq_callNodes]
    exact callNodes_children n .A .C .B none 0 1

/-! ## First and last step index of a node -/

theorem getElem?_inner {α : Type} (P X Q : List α) (j : Nat) (x : α) (h : X[j]? = some x) :
    (P ++ X ++ Q)[P.length + j]? = some x := by
  have hj : j < X.length := by
    by_contra hc
    rw [List.getElem?_eq_none (by omega)] at h
    exact Option.noConfusion h
  rw [List.getElem?_append_left (by rw [List.length_append]; omega),
    List.getElem?_append_right (by omega)]
  simpa using h

theorem SpanOK.embed (L0 : Nat) {X : List Step} {v : TreeNode} (P Q : List Step)
    (h : SpanOK (L0 + P.length) X v)
    (hP : ∀ st ∈ P, st.activeNodeId ≠ some v.id)
    (hQ : ∀ st ∈ Q, st.activeNodeId ≠ some v.id) : SpanOK L0 (P ++ X ++ Q) v := by
  obtain ⟨l, hl, hge, hlt, ⟨st1, g1, p1⟩, ⟨st2, g2, p2⟩, hall⟩ := h
  refine ⟨l, hl, by omega, hlt, ⟨st1, ?_, p1⟩, ⟨st2, ?_, p2⟩, ?_⟩
  · have := getElem?_inner P X Q _ _ g1
    rwa [show P.length + (v.firstStepIndex - (L0 + P.length)) = v.firstStepIndex - L0 by
      omega] at this
  · have := getElem?_inner P X Q _ _ g2
    rwa [show P.length + (l - (L0 + P.length)) = l - L0 by omega] at this
  · intro i st hi hact
    by_cases h1 : i < P.length
    · rw [List.append_assoc, List.getElem?_append_left h1] at hi
      exact absurd hact (hP st (List.getElem?_mem hi))
    · by_cases h2 : i < P.length + X.length
      · rw [List.getElem?_append_left (by rw [List.length_append]; omega),
          List.getElem?_append_right (by omega)] at hi
        have := hall (i - P.length) st hi hact
        omega
      · rw [List.getElem?_append_right (by rw [List.length_append]; omega)] at hi
        exact absurd hact (hQ st (List.getElem?_mem hi))

theorem newSteps_active_range (k : Nat) (f t a : Peg) (p : Option Nat) (s : GenState) :
    ∀ st ∈ newSteps k f t a p s, ∃ j, st.activeNodeId = some j ∧
      s.nodeIdCounter < j ∧ j ≤ s.nodeIdCounter + (2 ^ (k + 1) - 1) := by
  induction k generalizing f t a p s with
  | zero =>
    intro st hst
    rw [newSteps_zero] at hst
    simp only [List.mem_cons, List.mem_singleton, List.mem_nil_iff, or_false] at hst
    rcases hst with rfl | rfl | rfl <;> exact ⟨s.nodeIdCounter + 1, rfl, by omega, by simp⟩
  | succ k ih =>
    have h1 : 1 ≤ 2 ^ (k + 1) := Nat.one_le_two_pow
    have h2 : 2 ^ (k + 1 + 1) = 2 * 2 ^ (k + 1) := by ring
    have c3 := tohRun_nodeIdCounter k f a t (some (s.nodeIdCounter + 1))
      (preState (k + 2) f t a p s)
    rw [preState_nodeIdCounter] at c3
    intro st hst
    rw [newSteps_succ] at hst
    simp only [List.mem_append, List.mem_cons, List.mem_singleton, List.mem_nil_iff,
      or_false] at hst
    rcases hst with (((((rfl | rfl) | hst) | (rfl | rfl | rfl)) | hst) | rfl)
    · exact ⟨s.nodeIdCounter + 1, rfl, by omega, by omega⟩
    · exact ⟨s.nodeIdCounter + 1, rfl, by omega, by omega⟩
    · obtain ⟨j, e, g1, g2⟩ := ih _ _ _ _ _ st hst
      rw [preState_nodeIdCounter] at g1 g2
      exact ⟨j, e, by omega, by omega⟩
    · exact ⟨s.nodeIdCounter + 1, rfl, by omega, by omega⟩
    · exact ⟨s.nodeIdCounter + 1, rfl, by omega, by omega⟩
    · exact ⟨s.nodeIdCounter + 1, rfl, by omega, by omega⟩
    · obtain ⟨j, e, g1, g2⟩ := ih _ _ _ _ _ st hst
      rw [midState_nodeIdCounter, c3] at g1 g2
      exact ⟨j, e, by omega, by omega⟩
    · exact ⟨s.nodeIdCounter + 1, rfl, by omega, by omega⟩

theorem root_span {L0 : Nat} (T : Nat) {X : List Step} {v : TreeNode} (st1 st2 : Step)
    (hT : 2 ≤ T) (hlen : X.length = T) (h0 : X[0]? = some st1) (hlast : X.getLast? = some st2)
    (hfirst : v.firstStepIndex = L0) (hl : v.lastStepIndex = some (L0 + T - 1))
    (p1 : st1.nodePhase = .entering_call ∧ st1.isCall = true ∧ st1.activeNodeId = some v.id)
    (p2 : (st2.nodePhase = .returning_base ∨ st2.nodePhase = .returning_N) ∧
      st2.isReturn = true ∧ st2.activeNodeId = some v.id) : SpanOK L0 X v := by
  refine ⟨L0 + T - 1, hl, by omega, by omega, ⟨st1, ?_, p1⟩, ⟨st2, ?_, p2⟩, ?_⟩
  · rw [hfirst, Nat.sub_self]
    exact h0
  · rw [List.getLast?_eq_getElem?, hlen] at hlast
    rwa [show L0 + T - 1 - L0 = T - 1 by omega]
  · intro i st hi _
    have hi2 : i < X.length := by
      by_contra hc
      rw [List.getElem?_eq_none (by omega)] at hi
      exact Option.noConfusion hi
    omega

theorem traceLength_ge (k : Nat) : 3 ≤ traceLength k := by
  cases k with
  | zero => exact Nat.le_refl _
  | succ k => simp only [traceLength]; omega

theorem callNodes_span (k : Nat) (f t a : Peg) (p : Option Nat) (s : GenState) :
    ∀ v ∈ callNodes k f t a p s.nodeIdCounter s.steps.length,
      SpanOK s.steps.length (newSteps k f t a p s) v := by
  induction k generalizing f t a p s with
  | zero =>
    intro v hv
    simp only [callNodes, List.mem_singleton] at hv
    subst hv
    refine root_span 3
      (callStep 1 f t a (s.nodeIdCounter + 1) (enterCall 1 f t a p s))
      (returnStep 1 f t a (s.nodeIdCounter + 1) .returning_base (tohRun 0 f t a p s))
      (by omega) (newSteps_length 0 f t a p s) ?_ ?_ rfl rfl
      ⟨rfl, rfl, rfl⟩ ⟨Or.inl rfl, rfl, rfl⟩
    · rw [newSteps_zero]
      rfl
    · rw [newSteps_zero]
      rfl
  | succ k ih =>
    have h1 : 1 ≤ 2 ^ (k + 1) := Nat.one_le_two_pow
    have hT := traceLength_ge k
    have c3 := tohRun_nodeIdCounter k f a t (some (s.nodeIdCounter + 1))
      (preState (k + 2) f t a p s)
    rw [preState_nodeIdCounter] at c3
    have lpre : (preState (k + 2) f t a p s).steps.length = s.steps.length + 2 := by simp
    have l3 := tohRun_steps_length k f a t (some (s.nodeIdCounter + 1))
      (preState (k + 2) f t a p s)
    rw [lpre] at l3
    have lmid : (midState (k + 2) f t a (s.nodeIdCounter + 1)
        (tohRun k f a t (some (s.nodeIdCounter + 1)) (preState (k + 2) f t a p s))).steps.length =
        s.steps.length + traceLength k + 5 := by
      rw [midState_steps, List.length_append, l3]
      simp only [List.length_cons, List.length_nil]
      omega
    have cmid : (midState (k + 2) f t a (s.nodeIdCounter + 1)
        (tohRun k f a t (some (s.nodeIdCounter + 1))
          (preState (k + 2) f t a p s))).nodeIdCounter = s.nodeIdCounter + 2 ^ (k + 1) := by
      rw [midState_nodeIdCounter, c3]
      omega
    have r1 := newSteps_active_range k f a t (some (s.nodeIdCounter + 1))
      (preState (k + 2) f t a p s)
    have r2 := newSteps_active_range k a t f (some (s.nodeIdCounter + 1))
      (midState (k + 2) f t a (s.nodeIdCounter + 1)
        (tohRun k f a t (some (s.nodeIdCounter + 1)) (preState (k + 2) f t a p s)))
    rw [preState_nodeIdCounter] at r1
    rw [cmid] at r2
    have i1 := ih f a t (some (s.nodeIdCounter + 1)) (preState (k + 2) f t a p s)
    have i2 := ih a t f (some (s.nodeIdCounter + 1))
      (midState (k + 2) f t a (s.nodeIdCounter + 1)
        (tohRun k f a t (some (s.nodeIdCounter + 1)) (preState (k + 2) f t a p s)))
    rw [preState_nodeIdCounter, lpre] at i1
    rw [cmid, lmid] at i2
    have lx1 := newSteps_length k f a t (some (s.nodeIdCounter + 1)) (preState (k + 2) f t a p s)
    have hsucc := newSteps_succ k f t a p s
    have hlenX := newSteps_length (k + 1) f t a p s
    generalize newSteps k f a t (some (s.nodeIdCounter + 1)) (preState (k + 2) f t a p s) = X1
      at hsucc r1 i1 lx1
    generalize newSteps k a t f (some (s.nodeIdCounter + 1))
      (midState (k + 2) f t a (s.nodeIdCounter + 1)
        (tohRun k f a t (some (s.nodeIdCounter + 1)) (preState (k + 2) f t a p s))) = X2
      at hsucc r2 i2
    generalize hP : [callStep (k + 2) f t a (s.nodeIdCounter + 1) (enterCall (k + 2) f t a p s),
      plainStep (firstCallDescription (k + 2) f t a) (s.nodeIdCounter + 1) .before_recursion_1
        (preState (k + 2) f t a p s)] = P at hsucc
    generalize hM : [plainStep (bigMoveDescription (k + 2) f t a) (s.nodeIdCounter + 1)
         .processing_move_N
         (tohRun k f a t (some (s.nodeIdCounter + 1)) (preState (k + 2) f t a p s)),
       moveStep f t (s.nodeIdCounter + 1) .processing_move_N_done
         (tohRun k f a t (some (s.nodeIdCounter + 1)) (preState (k + 2) f t a p s))
         (midState (k + 2) f t a (s.nodeIdCounter + 1)
           (tohRun k f a t (some (s.nodeIdCounter + 1)) (preState (k + 2) f t a p s))),
       plainStep (secondCallDescription (k + 2) f t a) (s.nodeIdCounter + 1) .before_recursion_2
         (midState (k + 2) f t a (s.nodeIdCounter + 1)
           (tohRun k f a t (some (s.nodeIdCounter + 1)) (preState (k + 2) f t a p s)))] = M
      at hsucc
    generalize hR : [returnStep (k + 2) f t a (s.nodeIdCounter + 1) .returning_N
      (tohRun (k + 1) f t a p s)] = R at hsucc
    have aP : ∀ st ∈ P, st.activeNodeId = some (s.nodeIdCounter + 1) := by
      subst hP
      intro st hst
      simp only [List.mem_cons, List.mem_singleton, List.mem_nil_iff, or_false] at hst
      rcases hst with rfl | rfl <;> rfl
    have aM : ∀ st ∈ M, st.activeNodeId = some (s.nodeIdCounter + 1) := by
      subst hM
      intro st hst
      simp only [List.mem_cons, List.mem_singleton, List.mem_nil_iff, or_false] at hst
      rcases hst with rfl | rfl | rfl <;> rfl
    have aR : ∀ st ∈ R, st.activeNodeId = some (s.nodeIdCounter + 1) := by
      subst hR
      intro st hst
      simp only [List.mem_cons, List.mem_singleton, List.mem_nil_iff, or_false] at hst
      subst hst
      rfl
    have lP : P.length = 2 := by subst hP; rfl
    have lM : M.length = 3 := by subst hM; rfl
    intro v hv
    simp only [callNodes, List.mem_cons, List.mem_append] at hv
    rcases hv with rfl | hv | hv
    · refine root_span (traceLength (k + 1))
        (callStep (k + 2) f t a (s.nodeIdCounter + 1) (enterCall (k + 2) f t a p s))
        (returnStep (k + 2) f t a (s.nodeIdCounter + 1) .returning_N
          (tohRun (k + 1) f t a p s))
        (by have := traceLength_ge (k + 1); omega)
        hlenX ?_ ?_ rfl ?_
        ⟨rfl, rfl, rfl⟩ ⟨Or.inr rfl, rfl, rfl⟩
      · rw [hsucc, ← hP]
        rfl
      · rw [hsucc, ← hR]
        exact List.getLast?_concat _
      · simp only [traceLength]
        congr 1
    · have hid := callNodes_id_range k f a t (some (s.nodeIdCounter + 1)) (s.nodeIdCounter + 1)
        (s.steps.length + 2) v hv
      have h := SpanOK.embed s.steps.length P (M ++ X2 ++ R)
        (by rw [lP]; exact i1 v hv)
        (fun st hst => by
          rw [aP st hst]
          intro hc
          have := Option.some.inj hc
          omega)
        (fun st hst => by
          simp only [List.mem_append] at hst
          rcases hst with (hst | hst) | hst
          · rw [aM st hst]
            intro hc
            have := Option.some.inj hc
            omega
          · obtain ⟨j, e, g1, g2⟩ := r2 st hst
            rw [e]
            intro hc
            have := Option.some.inj hc
            omega
          · rw [aR st hst]
            intro hc
            have := Option.some.inj hc
            omega)
      rw [hsucc]
      simpa only [List.append_assoc] using h
    · have hid := callNodes_id_range k a t f (some (s.nodeIdCounter + 1))
        (s.nodeIdCounter + 2 ^ (k + 1)) (s.steps.length + traceLength k + 5) v hv
      have h := SpanOK.embed s.steps.length (P ++ X1 ++ M) R
        (by
          rw [List.length_append, List.length_append, lP, lM, lx1,
            show s.steps.length + (2 + traceLength k + 3) = s.steps.length + traceLength k + 5 by
              omega]
          exact i2 v hv)
        (fun st hst => by
          simp only [List.mem_append] at hst
          rcases hst with (hst | hst) | hst
          · rw [aP st hst]
            intro hc
            have := Option.some.inj hc
            omega
          · obtain ⟨j, e, g1, g2⟩ := r1 st hst
            rw [e]
            intro hc
            have := Option.some.inj hc
            omega
          · rw [aM st hst]
            intro hc
            have := Option.some.inj hc
            omega)
        (fun st hst => by
          rw [aR st hst]
          intro hc
          have := Option.some.inj hc
          omega)
      rw [hsucc]
      exact h

/-- C6: for every N >= 1 and every node v of the generated tree,
`lastStepIndex` is set, `steps[v.firstStepIndex]` is the `entering_call` step of
v (isCall true), `steps[v.lastStepIndex]` is the `returning_base` or
`returning_N` step of v (isReturn true), `firstStepIndex < lastStepIndex`, and
every step whose activeNodeId is v.id has its index between the two. -/
theorem node_step_indices (n : Nat) :
    ∃ g, generateTowerOfHanoiSteps (n + 1) = some g ∧
      ∀ v ∈ g.treeStructure, ∃ l, v.lastStepIndex = some l ∧ v.firstStepIndex < l ∧
        (∃ st, g.steps[v.firstStepIndex]? = some st ∧ st.nodePhase = .entering_call ∧
          st.isCall = true ∧ st.activeNodeId = some v.id) ∧
        (∃ st, g.steps[l]? = some st ∧
          (st.nodePhase = .returning_base ∨ st.nodePhase = .returning_N) ∧
          st.isReturn = true ∧ st.activeNodeId = some v.id) ∧
        ∀ i st, g.steps[i]? = some st → st.activeNodeId = some v.id →
          v.firstStepIndex ≤ i ∧ i ≤ l := by
  refine ⟨_, generate_succ n, ?_⟩
  show ∀ v ∈ (tohRun n .A .C .B none (startState (n + 1))).generatedTreeNodes, _
  rw [tree_eq_callNodes]
  intro v hv
  have h0 := callNodes_span n .A .C .B none (startState (n + 1)) v hv
  have h := SpanOK.embed 0 [initialStep (n + 1)]
    [finishedStep (tohRun n .A .C .B none (startState (n + 1)))]
    (by simpa using h0)
    (fun st hst => by
      simp only [List.mem_singleton] at hst
      subst hst
      exact fun hc => Option.noConfusion hc)
    (fun st hst => by
      simp only [List.mem_singleton] at hst
      subst hst
      exact fun hc => Option.noConfusion hc)
  obtain ⟨l, hl, _, hlt, ⟨st1, g1, p1⟩, ⟨st2, g2, p2⟩, hall⟩ := h
  simp only [List.singleton_append, List.cons_append, Nat.sub_zero, Nat.zero_add] at g1 g2 hall
  exact ⟨l, hl, hlt, ⟨st1, g1, p1⟩, ⟨st2, g2, p2⟩, hall⟩

/-! ## Timeline navigator -/

theorem generate_steps_ne_nil (n : Nat) :
    ∃ g, generateTowerOfHanoiSteps n = some g ∧ 1 ≤ g.steps.length := by
  cases n with
  | zero => exact ⟨_, generate_zero, by simp⟩
  | succ n => exact ⟨_, generate_succ n, by simp⟩

theorem NavInv.autoPauseEffect {s : AppState} (h : NavInv s) : NavInv (autoPauseEffect s) := by
  obtain ⟨h1, h2, h3⟩ := h
  unfold Hanoi.autoPauseEffect
  split_ifs
  · exact ⟨h1, h2, fun hc => Bool.noConfusion hc⟩
  · exact ⟨h1, h2, h3⟩

theorem NavInv.handleStartReset {s : AppState} (h : NavInv s) : NavInv (handleStartReset s) := by
  obtain ⟨h1, h2, _⟩ := h
  obtain ⟨g, hg, hlen⟩ := generate_steps_ne_nil s.numDisks
  simp only [Hanoi.handleStartReset, hg]
  refine ⟨?_, ?_, fun hc => Bool.noConfusion hc⟩
  · show (-1 : Int) ≤ 0
    omega
  · show (0 : Int) ≤ (g.steps.length : Int) - 1
    omega

theorem NavInv.handlePlayPause {s : AppState} (h : NavInv s) : NavInv (handlePlayPause s) := by
  obtain ⟨h1, h2, h3⟩ := h
  unfold Hanoi.handlePlayPause
  split_ifs
  · exact ⟨h1, h2, fun hc => Bool.noConfusion hc⟩
  · exact ⟨h1, h2, fun _ => rfl⟩
  · exact ⟨h1, h2, h3⟩

theorem NavInv.intervalTick {s : AppState} (h : NavInv s) : NavInv (intervalTick s) := by
  obtain ⟨h1, h2, h3⟩ := h
  unfold Hanoi.intervalTick
  split
  · next captured hlive hid =>
    have hcap : captured = s.allSteps := by
      have := h3 hlive
      rw [hid] at this
      exact Option.some.inj this
    subst hcap
    split_ifs with hlt
    · refine ⟨?_, ?_, h3⟩
      · show -1 ≤ s.currentStepIndex + 1
        omega
      · show s.currentStepIndex + 1 ≤ (s.allSteps.length : Int) - 1
        omega
    · exact ⟨h1, h2, fun hc => Bool.noConfusion hc⟩
  · exact ⟨h1, h2, h3⟩

theorem NavInv.handleStepForward {s : AppState} (h : NavInv s) :
    NavInv (handleStepForward s) := by
  obtain ⟨h1, h2, h3⟩ := h
  unfold Hanoi.handleStepForward
  split_ifs with hc
  · refine ⟨?_, ?_, h3⟩
    · show -1 ≤ s.currentStepIndex + 1
      omega
    · show s.currentStepIndex + 1 ≤ (s.allSteps.length : Int) - 1
      omega
  · exact ⟨h1, h2, h3⟩

theorem NavInv.handleStepBackward {s : AppState} (h : NavInv s) :
    NavInv (handleStepBackward s) := by
  obtain ⟨h1, h2, h3⟩ := h
  unfold Hanoi.handleStepBackward
  split_ifs with hc hd
  · refine ⟨?_, ?_, h3⟩
    · show -1 ≤ s.currentStepIndex - 1
      omega
    · show s.currentStepIndex - 1 ≤ (s.allSteps.length : Int) - 1
      omega
  · refine ⟨Int.le_refl _, ?_, h3⟩
    show (-1 : Int) ≤ (s.allSteps.length : Int) - 1
    omega
  · exact ⟨h1, h2, h3⟩

theorem NavInv.applyAction {s : AppState} (h : NavInv s) (a : Action) :
    NavInv (applyAction s a) := by
  cases a with
  | setNumDisks n => exact NavInv.autoPauseEffect h
  | startReset => exact NavInv.autoPauseEffect h.handleStartReset
  | playPause => exact NavInv.autoPauseEffect h.handlePlayPause
  | tick => exact NavInv.autoPauseEffect h.intervalTick
  | stepForward => exact NavInv.autoPauseEffect h.handleStepForward
  | stepBackward => exact NavInv.autoPauseEffect h.handleStepBackward

theorem NavInv.runActions {s : AppState} (h : NavInv s) (as : List Action) :
    NavInv (runActions s as) := by
  induction as generalizing s with
  | nil => exact h
  | cons a as ih => exact ih (h.applyAction a)

/-- C9: in every state reached from the initial state of `App` by any sequence
of disk-count changes, resets, play/pause clicks, interval ticks, forward steps
and backward steps, the cursor lies between -1 and `allSteps.length - 1`. -/
theorem cursor_in_range (as : List Action) :
    -1 ≤ (runActions initialAppState as).currentStepIndex ∧
    (runActions initialAppState as).currentStepIndex ≤
      ((runActions initialAppState as).allSteps.length : Int) - 1 := by
  have h0 : NavInv initialAppState :=
    ⟨Int.le_refl _, Int.le_refl _, fun hc => Bool.noConfusion hc⟩
  have h := h0.runActions as
  exact ⟨h.1, h.2.1⟩

/-- C10: when not playing and with the cursor c at least -1,
`handleStepForward` moves the cursor to c + 1 if c is below the last index and
leaves it otherwise (so a finished state stays finished), `handleStepBackward`
moves it to c - 1 if c > 0 and otherwise, for c = 0 and for c = -1, leaves it
at -1; neither changes the stored steps or the tree. -/
theorem manual_stepping (s : AppState) (hplay : s.isPlaying = false)
    (hlo : -1 ≤ s.currentStepIndex) :
    (handleStepForward s).currentStepIndex =
      (if s.currentStepIndex < (s.allSteps.length : Int) - 1 then s.currentStepIndex + 1
        else s.currentStepIndex) ∧
    (isFinished s = true → handleStepForward s = s ∧ isFinished (handleStepForward s) = true) ∧
    (handleStepBackward s).currentStepIndex =
      (if 0 < s.currentStepIndex then s.currentStepIndex - 1 else -1) ∧
    (s.currentStepIndex = 0 → (handleStepBackward s).currentStepIndex = -1) ∧
    (s.currentStepIndex = -1 → (handleStepBackward s).currentStepIndex = -1) ∧
    (handleStepForward s).allSteps = s.allSteps ∧
    (handleStepForward s).treeStructure = s.treeStructure ∧
    (handleStepBackward s).allSteps = s.allSteps ∧
    (handleStepBackward s).treeStructure = s.treeStructure := by
  refine ⟨?_, ?_, ?_, ?_, ?_, ?_, ?_, ?_, ?_⟩
  · unfold handleStepForward
    by_cases h : s.currentStepIndex < (s.allSteps.length : Int) - 1
    · simp [hplay, h]
    · simp [h]
  · intro hfin
    have hn : ¬ s.currentStepIndex < (s.allSteps.length : Int) - 1 := by
      simp only [isFinished, decide_eq_true_eq] at hfin
      omega
    have e : handleStepForward s = s := by simp [handleStepForward, hn]
    rw [e]
    exact ⟨rfl, hfin⟩
  · unfold handleStepBackward
    by_cases h : 0 < s.currentStepIndex
    · simp [hplay, h]
    · by_cases h0 : s.currentStepIndex = 0
      · simp [hplay, h0]
      · have : s.currentStepIndex = -1 := by omega
        simp [this]
  · intro h
    simp [handleStepBackward, hplay, h]
  · intro h
    simp [handleStepBackward, hplay, h]
  · unfold handleStepForward
    split_ifs <;> rfl
  · unfold handleStepForward
    split_ifs <;> rfl
  · unfold handleStepBackward
    split_ifs <;> rfl
  · unfold handleStepBackward
    split_ifs <;> rfl

set_option maxRecDepth 100000 in
theorem manual_stepping_witness :
    resetOneDisk.isPlaying = false ∧ -1 ≤ resetOneDisk.currentStepIndex ∧
    (handleStepForward resetOneDisk).currentStepIndex =
      (if resetOneDisk.currentStepIndex < (resetOneDisk.allSteps.length : Int) - 1
        then resetOneDisk.currentStepIndex + 1 else resetOneDisk.currentStepIndex) ∧
    (handleStepBackward resetOneDisk).currentStepIndex =
      (if 0 < resetOneDisk.currentStepIndex then resetOneDisk.currentStepIndex - 1 else -1) :=
  ⟨by decide, by decide,
    (manual_stepping resetOneDisk (by decide) (by decide)).1,
    (manual_stepping resetOneDisk (by decide) (by decide)).2.2.1⟩

set_option maxRecDepth 100000 in
/-- C8 as stated fails: for N = 2 the trace has 14 steps, the cursor at the last
index is 13, and seven calls of `handleStepBackward` leave it at index 6, where
the rods are A = [2], B = [1], C = [], not at -1. -/
theorem seven_steps_back_counterexample :
    lastIndexTwoDisks.isPlaying = false ∧
    lastIndexTwoDisks.currentStepIndex = (lastIndexTwoDisks.allSteps.length : Int) - 1 ∧
    (handleStepBackward^[7] lastIndexTwoDisks).currentStepIndex = 6 ∧
    (currentStepData (handleStepBackward^[7] lastIndexTwoDisks)).rods =
      { A := [2], B := [1], C := [] } ∧
    ¬ ((handleStepBackward^[7] lastIndexTwoDisks).currentStepIndex = -1 ∧
      (currentStepData (handleStepBackward^[7] lastIndexTwoDisks)).rods =
        { A := [2, 1], B := [], C := [] }) := by
  decide

set_option maxRecDepth 100000 in
/-- C8 amended: for N = 2 the trace has 14 steps; from the last index 13,
fourteen calls of `handleStepBackward` return the cursor to -1, no smaller
number of calls does, and the current step then shows A = [2, 1], B = [],
C = []. -/
theorem fourteen_steps_back :
    lastIndexTwoDisks.isPlaying = false ∧
    lastIndexTwoDisks.allSteps.length = 14 ∧
    lastIndexTwoDisks.currentStepIndex = 13 ∧
    (handleStepBackward^[14] lastIndexTwoDisks).currentStepIndex = -1 ∧
    (currentStepData (handleStepBackward^[14] lastIndexTwoDisks)).rods =
      { A := [2, 1], B := [], C := [] } ∧
    ∀ j < 14, (handleStepBackward^[j] lastIndexTwoDisks).currentStepIndex ≠ -1 := by
  decide

/-! ## Start / Reset -/

/-- C11: for every n, `handleStartReset` with `numDisks = n` stores exactly the
steps and the tree that `generateTowerOfHanoiSteps n` returns. The generated
trace is never empty, so the rule "cursor 0 if steps were generated, else
cursor -1 on an empty trace" always takes its first branch: the cursor is 0,
the step shown there is the `initial_setup` step, and its rods hold all n disks
on A. For n = 0 the trace is exactly `initial_setup`, `finished`. -/
theorem reset_installs_trace (n : Nat) (s : AppState) :
    ∃ g, generateTowerOfHanoiSteps n = some g ∧
      (handleStartReset (setNumDisks n s)).allSteps = g.steps ∧
      (handleStartReset (setNumDisks n s)).treeStructure = g.treeStructure ∧
      (handleStartReset (setNumDisks n s)).currentStepIndex =
        (if g.steps = [] then -1 else 0) ∧
      g.steps ≠ [] ∧
      (handleStartReset (setNumDisks n s)).currentStepIndex = 0 ∧
      (handleStartReset (setNumDisks n s)).isPlaying = false ∧
      (∃ st, g.steps[0]? = some st ∧ st.nodePhase = .initial_setup ∧
        st.rods = { A := pushDisks n, B := [], C := [] } ∧
        currentStepData (handleStartReset (setNumDisks n s)) = st) ∧
      (n = 0 → g.steps.map (fun st => st.nodePhase) = [.initial_setup, .finished]) := by
  cases n with
  | zero =>
    refine ⟨_, generate_zero, ?_, ?_, ?_, ?_, ?_, ?_, ?_, ?_⟩ <;>
      simp [handleStartReset, setNumDisks, generate_zero, currentStepData]
    · exact ⟨rfl, rfl⟩
    · exact ⟨rfl, rfl⟩
  | succ k =>
    refine ⟨_, generate_succ k, ?_, ?_, ?_, ?_, ?_, ?_, ?_, ?_⟩ <;>
      simp [handleStartReset, setNumDisks, generate_succ, currentStepData]
    · exact ⟨rfl, rfl, fun h => absurd h (by omega)⟩

/-! ## Each snapshot follows from the previous one -/

theorem lastRods_nil (r : Rods) : lastRods r [] = r := rfl

theorem lastRods_cons (r : Rods) (st : Step) (X : List Step) :
    lastRods r (st :: X) = lastRods st.rods X := by
  cases X with
  | nil => rfl
  | cons y ys =>
    simp only [lastRods, List.getLast?_cons_cons]
    cases h : (y :: ys).getLast? with
    | none => simp at h
    | some z => rfl

theorem lastRods_append (r : Rods) (X Y : List Step) :
    lastRods r (X ++ Y) = lastRods (lastRods r X) Y := by
  induction X generalizing r with
  | nil => rfl
  | cons st X ih => rw [List.cons_append, lastRods_cons, lastRods_cons, ih]

theorem lastRods_concat (r : Rods) (X : List Step) (st : Step) :
    lastRods r (X ++ [st]) = st.rods := by
  rw [lastRods_append]
  rfl

theorem linked_append (r : Rods) (X Y : List Step) :
    Linked r (X ++ Y) ↔ Linked r X ∧ Linked (lastRods r X) Y := by
  induction X generalizing r with
  | nil => simp [Linked, lastRods_nil]
  | cons st X ih =>
    rw [List.cons_append, lastRods_cons]
    simp only [Linked, ih, and_assoc]

theorem linked_getElem {r : Rods} {X : List Step} (h : Linked r X) (i : Nat) (prev cur : Step)
    (h1 : X[i]? = some prev) (h2 : X[i + 1]? = some cur) : StepFollows prev.rods cur := by
  induction X generalizing r i with
  | nil => simp at h1
  | cons st X ih =>
    cases i with
    | zero =>
      simp only [List.getElem?_cons_zero, Option.some.injEq] at h1
      subst h1
      cases X with
      | nil => simp at h2
      | cons y ys =>
        simp only [List.getElem?_cons_succ, List.getElem?_cons_zero, Option.some.injEq] at h2
        subst h2
        exact h.2.1
    | succ j =>
      simp only [List.getElem?_cons_succ] at h1 h2
      exact ih h.2 j h1 h2

theorem popPush_eq_set {f t : Peg} {r : Rods} {rest : List Nat} {d : Nat}
    (h : r.get f = rest ++ [d]) :
    popPush f t r = (r.set f rest).set t ((r.set f rest).get t ++ [d]) := by
  simp [popPush, h]

theorem lastRods_newSteps (k : Nat) (f t a : Peg) (p : Option Nat) (s : GenState) (r : Rods) :
    lastRods r (newSteps k f t a p s) = (tohRun k f t a p s).tempRods := by
  cases k with
  | zero =>
    rw [newSteps_zero]
    rfl
  | succ k =>
    rw [newSteps_succ, lastRods_concat]
    rfl

theorem stepFollows_plain (d : String) (id : Nat) (ph : Phase) (st : GenState)
    (hph : isMovePhase ph = false) : StepFollows st.tempRods (plainStep d id ph st) :=
  ⟨rfl, hph⟩

theorem stepFollows_move {f t : Peg} (id : Nat) (ph : Phase) (s0 st : GenState)
    {rest : List Nat} {d : Nat} (hph : isMovePhase ph = true)
    (h : s0.tempRods.get f = rest ++ [d]) (hst : st.tempRods = popPush f t s0.tempRods) :
    StepFollows s0.tempRods (moveStep f t id ph s0 st) := by
  refine ⟨hph, d, rest, ?_, h, ?_⟩
  · simp [diskToMove, h]
  · show st.tempRods = _
    rw [hst, popPush_eq_set h]

theorem newSteps_linked (k : Nat) (f t a : Peg) (p : Option Nat) (s : GenState) (F : List Nat)
    (h : Ready k f t a s.tempRods F) : Linked s.tempRods (newSteps k f t a p s) := by
  induction k generalizing f t a p s F with
  | zero =>
    have h1 : (enterCall 1 f t a p s).tempRods.get f = F ++ [1] := h.src
    rw [newSteps_zero]
    refine ⟨⟨rfl, rfl⟩, ?_, ⟨?_, rfl⟩, trivial⟩
    · exact stepFollows_move _ _ (enterCall 1 f t a p s) _ rfl h1 rfl
    · simp [returnStep, moveStep, tohRun_zero]
  | succ k ih =>
    have h1 : Ready k f a t (preState (k + 2) f t a p s).tempRods (F ++ [k + 2]) := h.first
    have h2 := h.mid p
    obtain ⟨g1, g2, g3⟩ := tohRun_rods k f a t (some (s.nodeIdCounter + 1))
      (preState (k + 2) f t a p s) (F ++ [k + 2]) h1.hft h1.hfa h1.hta h1.src
    have e1 := ih f a t (some (s.nodeIdCounter + 1)) (preState (k + 2) f t a p s) _ h1
    have e2 := ih a t f (some (s.nodeIdCounter + 1)) _ _ h2
    rw [newSteps_succ]
    simp only [linked_append, lastRods_append, lastRods_newSteps]
    refine ⟨⟨⟨⟨?_, ?_⟩, ?_⟩, ?_⟩, ?_⟩
    · exact ⟨⟨rfl, rfl⟩, ⟨rfl, rfl⟩, trivial⟩
    · exact e1
    · refine ⟨⟨rfl, rfl⟩, ?_, ⟨rfl, rfl⟩, trivial⟩
      exact stepFollows_move _ _ _ _ rfl g1 rfl
    · exact e2
    · refine ⟨⟨?_, rfl⟩, trivial⟩
      simp [returnStep, tohRun_succ]

theorem StepFollows.unpack {prev : Rods} {cur : Step} (h : StepFollows prev cur) :
    (cur.moveDetails.isSome = true ↔
      (cur.nodePhase = .processing_move_base ∨ cur.nodePhase = .processing_move_N_done)) ∧
    (∀ m, cur.moveDetails = some m → ∃ d rest, m.disk = some d ∧
      prev.get m.fromPeg = rest ++ [d] ∧
      cur.rods = (prev.set m.fromPeg rest).set m.toPeg
        ((prev.set m.fromPeg rest).get m.toPeg ++ [d])) ∧
    (cur.moveDetails = none → cur.rods = prev) := by
  unfold StepFollows at h
  cases hm : cur.moveDetails with
  | none =>
    rw [hm] at h
    have hph : ¬ (cur.nodePhase = .processing_move_base ∨
        cur.nodePhase = .processing_move_N_done) := by
      have := h.2
      simpa [isMovePhase] using this
    refine ⟨?_, ?_, fun _ => h.1⟩
    · simp [hph]
    · intro m hc
      exact Option.noConfusion hc
  | some m =>
    rw [hm] at h
    have hph : cur.nodePhase = .processing_move_base ∨
        cur.nodePhase = .processing_move_N_done := by
      have := h.1
      simpa [isMovePhase] using this
    refine ⟨?_, ?_, fun hc => Option.noConfusion hc⟩
    · simp [hph]
    · intro m2 hc
      cases hc
      exact h.2

theorem trace_linked (N : Nat) :
    ∃ g, generateTowerOfHanoiSteps N = some g ∧
      (∃ st0, g.steps[0]? = some st0 ∧ st0.rods = { A := pushDisks N, B := [], C := [] }) ∧
      Linked { A := pushDisks N, B := [], C := [] } g.steps := by
  cases N with
  | zero =>
    refine ⟨_, generate_zero, ⟨initialStep 0, by simp, rfl⟩, ?_⟩
    exact ⟨⟨rfl, rfl⟩, ⟨rfl, rfl⟩, trivial⟩
  | succ n =>
    refine ⟨_, generate_succ n, ⟨initialStep (n + 1), by simp, rfl⟩, ?_⟩
    refine ⟨⟨rfl, rfl⟩, ?_⟩
    rw [linked_append, lastRods_newSteps]
    exact ⟨newSteps_linked n .A .C .B none (startState (n + 1)) [] (ready_start n),
      ⟨rfl, rfl⟩, trivial⟩

/-- C14: step 0 records A = [N, ..., 1], B = [], C = []; a step carries a move
descriptor exactly when its phase is `processing_move_base` or
`processing_move_N_done`; the rods of such a step are the rods of the step
before it with the descriptor's disk taken off the top of `from` and put on top
of `to`; the rods of every other step repeat those of the step before it. -/
theorem snapshots_follow_moves (N : Nat) :
    ∃ g, generateTowerOfHanoiSteps N = some g ∧
      (∃ st0, g.steps[0]? = some st0 ∧ st0.rods = { A := pushDisks N, B := [], C := [] }) ∧
      ∀ (i : Nat) (prev cur : Step), g.steps[i]? = some prev → g.steps[i + 1]? = some cur →
        (cur.moveDetails.isSome = true ↔
          (cur.nodePhase = .processing_move_base ∨
            cur.nodePhase = .processing_move_N_done)) ∧
        (∀ m, cur.moveDetails = some m → ∃ d rest, m.disk = some d ∧
          prev.rods.get m.fromPeg = rest ++ [d] ∧
          cur.rods = (prev.rods.set m.fromPeg rest).set m.toPeg
            ((prev.rods.set m.fromPeg rest).get m.toPeg ++ [d])) ∧
        (cur.moveDetails = none → cur.rods = prev.rods) := by
  obtain ⟨g, hg, h0, hl⟩ := trace_linked N
  exact ⟨g, hg, h0, fun i prev cur h1 h2 => (linked_getElem hl i prev cur h1 h2).unpack⟩

/-! ## A pop from an empty rod -/

theorem popPush_of_empty {f t : Peg} {r : Rods} (h : r.get f = []) : popPush f t r = r := by
  cases r with
  | mk x y z => cases f <;> simp_all [popPush, Rods.get, Rods.set]

theorem linked_disk_defined {r : Rods} {X : List Step} (h : Linked r X) :
    ∀ st ∈ X, ∀ m, st.moveDetails = some m → ∃ d, m.disk = some d := by
  induction X generalizing r with
  | nil =>
    intro st hst
    simp at hst
  | cons x X ih =>
    intro st hst m hm
    rcases List.mem_cons.mp hst with rfl | hst
    · obtain ⟨d, rest, hd, _⟩ := (h.1.unpack).2.1 m hm
      exact ⟨d, hd⟩
    · exact ih h.2 st hst m hm

set_option maxRecDepth 100000 in
/-- C12 as stated fails: called with the source rod empty, `tohRecursive` does
not fault. With count 1 on empty rods it returns a state whose
`processing_move_base` step carries the descriptor with the disk missing and
the description `MOVE: Disk ? from Rod A to Rod C`; with count 2 on a single
disk the big-disk move finds rod A empty and the `processing_move_N_done` step
carries a descriptor without disk. -/
theorem empty_pop_counterexample :
    (startState 0).tempRods.get .A = [] ∧
    (tohRecursive 1 .A .C .B none (startState 0)).map
        (fun s2 => s2.steps.map fun st => (st.nodePhase, st.moveDetails, st.description)) =
      some [(.initial_setup, none, "Initial state with 0 disks on Rod A."),
        (.entering_call, none, "CALL: towerOfHanoi(1, 'A', 'C', 'B')"),
        (.processing_move_base, some { disk := none, fromPeg := .A, toPeg := .C },
          "MOVE: Disk ? from Rod A to Rod C"),
        (.returning_base, none, "RETURN from towerOfHanoi(1, 'A', 'C', 'B')")] ∧
    (tohRecursive 2 .A .C .B none (startState 1)).map
        (fun s2 => (s2.steps.filter fun st => st.moveDetails.isSome).map
          fun st => (st.nodePhase, st.moveDetails)) =
      some [(.processing_move_base, some { disk := some 1, fromPeg := .A, toPeg := .B }),
        (.processing_move_N_done, some { disk := none, fromPeg := .A, toPeg := .C }),
        (.processing_move_base, some { disk := some 1, fromPeg := .B, toPeg := .C })] ∧
    ¬ (tohRecursive 1 .A .C .B none (startState 0) = none) := by
  decide

/-- C12 amended: a move point reached with the source rod empty does not stop
the generator. `tohRecursive` returns for every positive count; in the base
case and at the big-disk move alike nothing is pushed, the rods stay as they
are, and the move step is recorded with a descriptor whose disk is missing and
with `?` in its description. In the traces of `generateTowerOfHanoiSteps` this
does not happen: every recorded move descriptor carries a disk. -/
theorem empty_pop_is_recorded :
    (∀ (k : Nat) (f t a : Peg) (p : Option Nat) (s : GenState),
      ∃ s2, tohRecursive (k + 1) f t a p s = some s2) ∧
    (∀ (f t a : Peg) (p : Option Nat) (s : GenState), s.tempRods.get f = [] →
      ∃ s2, tohRecursive 1 f t a p s = some s2 ∧ s2.tempRods = s.tempRods ∧
        ∃ st ∈ s2.steps, st.nodePhase = .processing_move_base ∧
          st.moveDetails = some { disk := none, fromPeg := f, toPeg := t } ∧
          st.description = "MOVE: Disk ? from Rod " ++ f.name ++ " to Rod " ++ t.name ∧
          st.rods = s.tempRods) ∧
    (∀ (k : Nat) (f t a : Peg) (p : Option Nat) (s s3 : GenState),
      tohRecursive (k + 1) f a t (some (s.nodeIdCounter + 1)) (preState (k + 2) f t a p s) =
        some s3 →
      s3.tempRods.get f = [] →
      ∃ s2, tohRecursive (k + 2) f t a p s = some s2 ∧
        ∃ st ∈ s2.steps, st.nodePhase = .processing_move_N_done ∧
          st.moveDetails = some { disk := none, fromPeg := f, toPeg := t } ∧
          st.description = "MOVE: Disk ? from Rod " ++ f.name ++ " to Rod " ++ t.name ∧
          st.rods = s3.tempRods) ∧
    (∀ N : Nat, ∃ g, generateTowerOfHanoiSteps N = some g ∧
      ∀ st ∈ g.steps, ∀ m, st.moveDetails = some m → ∃ d, m.disk = some d) := by
  refine ⟨fun k f t a p s => ⟨_, tohRecursive_succ k f t a p s⟩, ?_, ?_, ?_⟩
  · intro f t a p s hf
    have hpop : popPush f t s.tempRods = s.tempRods := popPush_of_empty hf
    refine ⟨_, tohRecursive_succ 0 f t a p s, ?_, ?_⟩
    · simp [tohRun_zero, hpop]
    · refine ⟨moveStep f t (s.nodeIdCounter + 1) .processing_move_base (enterCall 1 f t a p s)
        (performMove f t (s.nodeIdCounter + 1) .processing_move_base (enterCall 1 f t a p s)),
        ?_, rfl, ?_, ?_, ?_⟩
      · rw [tohRun_steps, newSteps_zero]
        simp
      · simp [moveStep, diskToMove, hf]
      · simp [moveStep, diskToMove, hf, moveDescription, snapshot]
      · simp [moveStep, hpop]
  · intro k f t a p s s3 h3 hf
    rw [tohRecursive_succ] at h3
    have e3 := Option.some.inj h3
    have hpop : popPush f t s3.tempRods = s3.tempRods := popPush_of_empty hf
    refine ⟨_, tohRecursive_succ (k + 1) f t a p s, ?_⟩
    refine ⟨moveStep f t (s.nodeIdCounter + 1) .processing_move_N_done s3
      (midState (k + 2) f t a (s.nodeIdCounter + 1) s3), ?_, rfl, ?_, ?_, ?_⟩
    · rw [tohRun_steps, newSteps_succ, e3]
      simp
    · simp [moveStep, diskToMove, hf]
    · simp [moveStep, diskToMove, hf, moveDescription, snapshot]
    · simp [moveStep, hpop]
  · intro N
    obtain ⟨g, hg, _, hl⟩ := trace_linked N
    exact ⟨g, hg, linked_disk_defined hl⟩

theorem empty_pop_is_recorded_witness :
    (startState 0).tempRods.get .C = [] ∧
    ∃ s2, tohRecursive 1 .C .B .A none (startState 0) = some s2 ∧
      s2.tempRods = (startState 0).tempRods ∧
      ∃ st ∈ s2.steps, st.nodePhase = .processing_move_base ∧
        st.moveDetails = some { disk := none, fromPeg := .C, toPeg := .B } ∧
        st.description = "MOVE: Disk ? from Rod " ++ Peg.C.name ++ " to Rod " ++ Peg.B.name ∧
        st.rods = (startState 0).tempRods :=
  ⟨rfl, empty_pop_is_recorded.2.1 .C .B .A none (startState 0) rfl⟩

/-! ## The move of each node -/

theorem movesOfNode_append (id : Nat) (X Y : List Step) :
    movesOfNode id (X ++ Y) = movesOfNode id X ++ movesOfNode id Y := by
  simp [movesOfNode, List.filter_append]

theorem movesOfNode_of_ne (id : Nat) (X : List Step)
    (h : ∀ st ∈ X, st.activeNodeId ≠ some id) : movesOfNode id X = [] := by
  rw [movesOfNode, List.filter_eq_nil_iff]
  intro st hst
  simp [h st hst]

theorem MoveOK.widen {X : List Step} {v : TreeNode} (P Q : List Step) (h : MoveOK X v)
    (hP : ∀ st ∈ P, st.activeNodeId ≠ some v.id)
    (hQ : ∀ st ∈ Q, st.activeNodeId ≠ some v.id) : MoveOK (P ++ X ++ Q) v := by
  obtain ⟨st, h1, h2, h3, h4⟩ := h
  refine ⟨st, ?_, h2, h3, fun hn => ?_⟩
  · rw [movesOfNode_append, movesOfNode_append, movesOfNode_of_ne _ P hP,
      movesOfNode_of_ne _ Q hQ, h1]
    rfl
  · obtain ⟨hph, L, R, prev, hX, g1, g2, g3⟩ := h4 hn
    refine ⟨hph, P ++ L, R ++ Q, prev, ?_, g1, g2, g3⟩
    rw [hX]
    simp only [List.append_assoc]

theorem active_ne_of_range {X : List Step} {lo hi id : Nat}
    (h : ∀ st ∈ X, ∃ j, st.activeNodeId = some j ∧ lo < j ∧ j ≤ hi)
    (hid : id ≤ lo ∨ hi < id) : ∀ st ∈ X, st.activeNodeId ≠ some id := by
  intro st hst hc
  obtain ⟨j, e, g1, g2⟩ := h st hst
  rw [e] at hc
  have := Option.some.inj hc
  omega

theorem active_ne_of_eq {X : List Step} {c id : Nat}
    (h : ∀ st ∈ X, st.activeNodeId = some c) (hid : id ≠ c) :
    ∀ st ∈ X, st.activeNodeId ≠ some id := by
  intro st hst hc
  rw [h st hst] at hc
  exact hid (Option.some.inj hc).symm

theorem callNodes_move (k : Nat) (f t a : Peg) (p : Option Nat) (s : GenState) (F : List Nat)
    (h : Ready k f t a s.tempRods F) :
    ∀ v ∈ callNodes k f t a p s.nodeIdCounter s.steps.length,
      MoveOK (newSteps k f t a p s) v := by
  induction k generalizing f t a p s F with
  | zero =>
    intro v hv
    simp only [callNodes, List.mem_singleton] at hv
    subst hv
    have h1 : s.tempRods.get f = F ++ [1] := h.src
    refine ⟨moveStep f t (s.nodeIdCounter + 1) .processing_move_base (enterCall 1 f t a p s)
      (performMove f t (s.nodeIdCounter + 1) .processing_move_base (enterCall 1 f t a p s)),
      ?_, ?_, fun _ => rfl, fun hn => absurd hn (by simp)⟩
    · rw [newSteps_zero]
      simp [movesOfNode, callStep, moveStep, returnStep]
    · simp [moveStep, diskToMove, h1]
  | succ k ih =>
    have h1 : 1 ≤ 2 ^ (k + 1) := Nat.one_le_two_pow
    have hr1 : Ready k f a t (preState (k + 2) f t a p s).tempRods (F ++ [k + 2]) := h.first
    have hr2 := h.mid p
    obtain ⟨g1, _, _⟩ := tohRun_rods k f a t (some (s.nodeIdCounter + 1))
      (preState (k + 2) f t a p s) (F ++ [k + 2]) hr1.hft hr1.hfa hr1.hta hr1.src
    have c3 := tohRun_nodeIdCounter k f a t (some (s.nodeIdCounter + 1))
      (preState (k + 2) f t a p s)
    rw [preState_nodeIdCounter] at c3
    have lpre : (preState (k + 2) f t a p s).steps.length = s.steps.length + 2 := by simp
    have l3 := tohRun_steps_length k f a t (some (s.nodeIdCounter + 1))
      (preState (k + 2) f t a p s)
    rw [lpre] at l3
    have lmid : (midState (k + 2) f t a (s.nodeIdCounter + 1)
        (tohRun k f a t (some (s.nodeIdCounter + 1)) (preState (k + 2) f t a p s))).steps.length =
        s.steps.length + traceLength k + 5 := by
      rw [midState_steps, List.length_append, l3]
      simp only [List.length_cons, List.length_nil]
      omega
    have cmid : (midState (k + 2) f t a (s.nodeIdCounter + 1)
        (tohRun k f a t (some (s.nodeIdCounter + 1))
          (preState (k + 2) f t a p s))).nodeIdCounter = s.nodeIdCounter + 2 ^ (k + 1) := by
      rw [midState_nodeIdCounter, c3]
      omega
    have r1 := newSteps_active_range k f a t (some (s.nodeIdCounter + 1))
      (preState (k + 2) f t a p s)
    have r2 := newSteps_active_range k a t f (some (s.nodeIdCounter + 1))
      (midState (k + 2) f t a (s.nodeIdCounter + 1)
        (tohRun k f a t (some (s.nodeIdCounter + 1)) (preState (k + 2) f t a p s)))
    rw [preState_nodeIdCounter] at r1
    rw [cmid] at r2
    have i1 := ih f a t (some (s.nodeIdCounter + 1)) (preState (k + 2) f t a p s) _ hr1
    have i2 := ih a t f (some (s.nodeIdCounter + 1))
      (midState (k + 2) f t a (s.nodeIdCounter + 1)
        (tohRun k f a t (some (s.nodeIdCounter + 1)) (preState (k + 2) f t a p s))) _ hr2
    rw [preState_nodeIdCounter, lpre] at i1
    rw [cmid, lmid] at i2
    have hsucc := newSteps_succ k f t a p s
    have hd : diskToMove f (tohRun k f a t (some (s.nodeIdCounter + 1))
        (preState (k + 2) f t a p s)) = some (k + 2) := by
      simp [diskToMove, g1]
    generalize newSteps k f a t (some (s.nodeIdCounter + 1)) (preState (k + 2) f t a p s) = X1
      at hsucc r1 i1
    generalize newSteps k a t f (some (s.nodeIdCounter + 1))
      (midState (k + 2) f t a (s.nodeIdCounter + 1)
        (tohRun k f a t (some (s.nodeIdCounter + 1)) (preState (k + 2) f t a p s))) = X2
      at hsucc r2 i2
    generalize hP : [callStep (k + 2) f t a (s.nodeIdCounter + 1) (enterCall (k + 2) f t a p s),
      plainStep (firstCallDescription (k + 2) f t a) (s.nodeIdCounter + 1) .before_recursion_1
        (preState (k + 2) f t a p s)] = P at hsucc
    generalize hM : [plainStep (bigMoveDescription (k + 2) f t a) (s.nodeIdCounter + 1)
         .processing_move_N
         (tohRun k f a t (some (s.nodeIdCounter + 1)) (preState (k + 2) f t a p s)),
       moveStep f t (s.nodeIdCounter + 1) .processing_move_N_done
         (tohRun k f a t (some (s.nodeIdCounter + 1)) (preState (k + 2) f t a p s))
         (midState (k + 2) f t a (s.nodeIdCounter + 1)
           (tohRun k f a t (some (s.nodeIdCounter + 1)) (preState (k + 2) f t a p s))),
       plainStep (secondCallDescription (k + 2) f t a) (s.nodeIdCounter + 1) .before_recursion_2
         (midState (k + 2) f t a (s.nodeIdCounter + 1)
           (tohRun k f a t (some (s.nodeIdCounter + 1)) (preState (k + 2) f t a p s)))] = M
      at hsucc
    generalize hR : [returnStep (k + 2) f t a (s.nodeIdCounter + 1) .returning_N
      (tohRun (k + 1) f t a p s)] = R at hsucc
    have aP : ∀ st ∈ P, st.activeNodeId = some (s.nodeIdCounter + 1) := by
      subst hP
      intro st hst
      simp only [List.mem_cons, List.mem_singleton, List.mem_nil_iff, or_false] at hst
      rcases hst with rfl | rfl <;> rfl
    have aM : ∀ st ∈ M, st.activeNodeId = some (s.nodeIdCounter + 1) := by
      subst hM
      intro st hst
      simp only [List.mem_cons, List.mem_singleton, List.mem_nil_iff, or_false] at hst
      rcases hst with rfl | rfl | rfl <;> rfl
    have aR : ∀ st ∈ R, st.activeNodeId = some (s.nodeIdCounter + 1) := by
      subst hR
      intro st hst
      simp only [List.mem_cons, List.mem_singleton, List.mem_nil_iff, or_false] at hst
      subst hst
      rfl
    intro v hv
    simp only [callNodes, List.mem_cons, List.mem_append] at hv
    rcases hv with rfl | hv | hv
    · refine ⟨moveStep f t (s.nodeIdCounter + 1) .processing_move_N_done
          (tohRun k f a t (some (s.nodeIdCounter + 1)) (preState (k + 2) f t a p s))
          (midState (k + 2) f t a (s.nodeIdCounter + 1)
            (tohRun k f a t (some (s.nodeIdCounter + 1)) (preState (k + 2) f t a p s))),
        ?_, ?_, fun hn => absurd hn (by simp), fun _ => ⟨rfl, ?_⟩⟩
      · rw [hsucc]
        simp only [movesOfNode_append]
        rw [movesOfNode_of_ne _ X1 (active_ne_of_range r1 (Or.inl (Nat.le_refl _))),
          movesOfNode_of_ne _ X2 (active_ne_of_range r2 (Or.inl (by omega)))]
        subst hP hM hR
        simp [movesOfNode, callStep, moveStep, returnStep, plainStep]
      · simp [moveStep, hd]
      · refine ⟨P ++ X1, [plainStep (secondCallDescription (k + 2) f t a) (s.nodeIdCounter + 1)
          .before_recursion_2 (midState (k + 2) f t a (s.nodeIdCounter + 1)
            (tohRun k f a t (some (s.nodeIdCounter + 1)) (preState (k + 2) f t a p s)))] ++
          X2 ++ R,
          plainStep (bigMoveDescription (k + 2) f t a) (s.nodeIdCounter + 1) .processing_move_N
            (tohRun k f a t (some (s.nodeIdCounter + 1)) (preState (k + 2) f t a p s)),
          ?_, rfl, rfl, rfl⟩
        rw [hsucc, ← hM]
        simp only [List.append_assoc, List.cons_append, List.nil_append]
    · have hid := callNodes_id_range k f a t (some (s.nodeIdCounter + 1)) (s.nodeIdCounter + 1)
        (s.steps.length + 2) v hv
      have hne : v.id ≠ s.nodeIdCounter + 1 := by omega
      have hx := MoveOK.widen P (M ++ X2 ++ R) (i1 v hv) (active_ne_of_eq aP hne)
        (fun st hst => by
          simp only [List.mem_append] at hst
          rcases hst with (hst | hst) | hst
          · exact active_ne_of_eq aM hne st hst
          · exact active_ne_of_range r2 (Or.inl (by omega)) st hst
          · exact active_ne_of_eq aR hne st hst)
      rw [hsucc]
      simpa only [List.append_assoc] using hx
    · have hid := callNodes_id_range k a t f (some (s.nodeIdCounter + 1))
        (s.nodeIdCounter + 2 ^ (k + 1)) (s.steps.length + traceLength k + 5) v hv
      have hne : v.id ≠ s.nodeIdCounter + 1 := by omega
      have hx := MoveOK.widen (P ++ X1 ++ M) R (i2 v hv)
        (fun st hst => by
          simp only [List.mem_append] at hst
          rcases hst with (hst | hst) | hst
          · exact active_ne_of_eq aP hne st hst
          · exact active_ne_of_range r1 (Or.inr (by omega)) st hst
          · exact active_ne_of_eq aM hne st hst)
        (active_ne_of_eq aR hne)
      rw [hsucc]
      exact hx

/-- C15: for every N >= 1 and every node v = H(k, from, to, aux) of the tree,
exactly one step with `activeNodeId = v.id` carries a move descriptor; its
phase is `processing_move_base` if k = 1 and `processing_move_N_done` if
k > 1, and the descriptor is `{disk: k, from: v.from, to: v.to}`. For k > 1 the
step right before it is the `processing_move_N` step of v, whose description
"Returned from 1st call. Moving disk k from `from` to `to` for H(...)" names
the disk and the rods of that move. -/
theorem node_move_descriptor (n : Nat) :
    ∃ g, generateTowerOfHanoiSteps (n + 1) = some g ∧
      ∀ v ∈ g.treeStructure, ∃ st,
        (g.steps.filter fun s =>
          decide (s.activeNodeId = some v.id) && s.moveDetails.isSome) = [st] ∧
        st.moveDetails = some { disk := some v.n, fromPeg := v.fromPeg, toPeg := v.toPeg } ∧
        (v.n = 1 → st.nodePhase = .processing_move_base) ∧
        (1 < v.n → st.nodePhase = .processing_move_N_done ∧
          ∃ L R prev, g.steps = L ++ [prev, st] ++ R ∧ prev.nodePhase = .processing_move_N ∧
            prev.activeNodeId = some v.id ∧
            prev.description =
              "Returned from 1st call. Moving disk " ++ toString v.n ++ " from " ++
                v.fromPeg.name ++ " to " ++ v.toPeg.name ++ " for " ++
                nodeLabel v.n v.fromPeg v.toPeg v.auxPeg) := by
  refine ⟨_, generate_succ n, ?_⟩
  show ∀ v ∈ (tohRun n .A .C .B none (startState (n + 1))).generatedTreeNodes, _
  rw [tree_eq_callNodes]
  intro v hv
  have h0 := callNodes_move n .A .C .B none (startState (n + 1)) [] (ready_start n) v hv
  have h := MoveOK.widen [initialStep (n + 1)]
    [finishedStep (tohRun n .A .C .B none (startState (n + 1)))] h0
    (fun st hst => by
      simp only [List.mem_singleton] at hst
      subst hst
      exact fun hc => Option.noConfusion hc)
    (fun st hst => by
      simp only [List.mem_singleton] at hst
      subst hst
      exact fun hc => Option.noConfusion hc)
  simpa only [List.singleton_append, List.cons_append, MoveOK, movesOfNode,
    bigMoveDescription] using h

/-! ## The recorded call stack -/

theorem callNodes_zero_eq (f t a : Peg) (p : Option Nat) (c len : Nat) :
    callNodes 0 f t a p c len = [rootNode 0 f t a p c len] := rfl

theorem callNodes_succ_eq (k : Nat) (f t a : Peg) (p : Option Nat) (c len : Nat) :
    callNodes (k + 1) f t a p c len =
      rootNode (k + 1) f t a p c len ::
        (callNodes k f a t (some (c + 1)) (c + 1) (len + 2) ++
          callNodes k a t f (some (c + 1)) (c + 2 ^ (k + 1)) (len + traceLength k + 5)) := rfl

theorem rootNode_id (k : Nat) (f t a : Peg) (p : Option Nat) (c len : Nat) :
    (rootNode k f t a p c len).id = c + 1 := by
  cases k <;> rfl

theorem rootNode_parentId (k : Nat) (f t a : Peg) (p : Option Nat) (c len : Nat) :
    (rootNode k f t a p c len).parentId = p := by
  cases k <;> rfl

theorem rootNode_signature (k : Nat) (f t a : Peg) (p : Option Nat) (c len : Nat) :
    nodeSignature (rootNode k f t a p c len) = callSignature (k + 1) f t a := by
  cases k <;> rfl

theorem rootNode_mem (k : Nat) (f t a : Peg) (p : Option Nat) (c len : Nat) :
    rootNode k f t a p c len ∈ callNodes k f t a p c len := by
  cases k with
  | zero => simp [callNodes_zero_eq]
  | succ k => simp [callNodes_succ_eq]

theorem ParentChain.mono {T T2 : List TreeNode} (hsub : ∀ x ∈ T, x ∈ T2) {q : Option Nat}
    {path : List TreeNode} (h : ParentChain T q path) : ParentChain T2 q path := by
  induction path generalizing q with
  | nil => trivial
  | cons nd rest ih => exact ⟨hsub nd h.1, h.2.1, ih h.2.2⟩

/-- The stack of a step of the call itself: the chain is the node of the call. -/
theorem StackOK.own {k : Nat} {f t a : Peg} {p : Option Nat} {c len : Nat} {cs : List String}
    {st : Step} (hid : st.activeNodeId = some (c + 1))
    (hcs : st.callStack =
      cs ++ (if isReturning st.nodePhase then [] else [callSignature (k + 1) f t a])) :
    StackOK (callNodes k f t a p c len) p cs st := by
  refine ⟨[rootNode k f t a p c len], rootNode k f t a p c len,
    ⟨rootNode_mem k f t a p c len, rootNode_parentId k f t a p c len, trivial⟩, rfl, ?_, ?_⟩
  · rw [hid, rootNode_id]
  · rw [hcs]
    by_cases hr : isReturning st.nodePhase = true
    · simp [hr]
    · simp [hr, rootNode_signature]

/-- The stack of a step of a sub-call: the chain of the sub-call, with the node
of the calling call in front. -/
theorem StackOK.sub {k : Nat} {f t a : Peg} {p : Option Nat} {c len : Nat} {cs : List String}
    {Y : List TreeNode} {st : Step}
    (hsub : ∀ x ∈ Y, x ∈ callNodes (k + 1) f t a p c len)
    (h : StackOK Y (some (c + 1)) (cs ++ [callSignature (k + 2) f t a]) st) :
    StackOK (callNodes (k + 1) f t a p c len) p cs st := by
  obtain ⟨path, last, hch, hlast, hid, hcs⟩ := h
  have hne : path ≠ [] := by
    intro hc
    rw [hc] at hlast
    exact Option.noConfusion hlast
  refine ⟨rootNode (k + 1) f t a p c len :: path, last, ⟨rootNode_mem _ _ _ _ _ _ _,
    rootNode_parentId _ _ _ _ _ _ _, ?_⟩, ?_, hid, ?_⟩
  · rw [rootNode_id]
    exact hch.mono hsub
  · cases path with
    | nil => exact absurd rfl hne
    | cons y ys => rw [List.getLast?_cons_cons, hlast]
  · rw [hcs, List.dropLast_cons_of_ne_nil hne]
    by_cases hr : isReturning st.nodePhase = true
    · simp [hr, rootNode_signature]
    · simp [hr, rootNode_signature]

theorem newSteps_stack (k : Nat) (f t a : Peg) (p : Option Nat) (s : GenState) :
    ∀ st ∈ newSteps k f t a p s,
      StackOK (callNodes k f t a p s.nodeIdCounter s.steps.length) p s.callStack st := by
  induction k generalizing f t a p s with
  | zero =>
    intro st hst
    rw [newSteps_zero] at hst
    simp only [List.mem_cons, List.mem_singleton, List.mem_nil_iff, or_false] at hst
    rcases hst with rfl | rfl | rfl
    · exact StackOK.own rfl rfl
    · exact StackOK.own rfl rfl
    · refine StackOK.own rfl ?_
      show (tohRun 0 f t a p s).callStack = _
      rw [tohRun_callStack]
      simp [returnStep, isReturning]
  | succ k ih =>
    have c3 := tohRun_nodeIdCounter k f a t (some (s.nodeIdCounter + 1))
      (preState (k + 2) f t a p s)
    rw [preState_nodeIdCounter] at c3
    have h1 : 1 ≤ 2 ^ (k + 1) := Nat.one_le_two_pow
    have lpre : (preState (k + 2) f t a p s).steps.length = s.steps.length + 2 := by simp
    have l3 := tohRun_steps_length k f a t (some (s.nodeIdCounter + 1))
      (preState (k + 2) f t a p s)
    rw [lpre] at l3
    have lmid : (midState (k + 2) f t a (s.nodeIdCounter + 1)
        (tohRun k f a t (some (s.nodeIdCounter + 1)) (preState (k + 2) f t a p s))).steps.length =
        s.steps.length + traceLength k + 5 := by
      rw [midState_steps, List.length_append, l3]
      simp only [List.length_cons, List.length_nil]
      omega
    have cmid : (midState (k + 2) f t a (s.nodeIdCounter + 1)
        (tohRun k f a t (some (s.nodeIdCounter + 1))
          (preState (k + 2) f t a p s))).nodeIdCounter = s.nodeIdCounter + 2 ^ (k + 1) := by
      rw [midState_nodeIdCounter, c3]
      omega
    have cs3 : (tohRun k f a t (some (s.nodeIdCounter + 1))
        (preState (k + 2) f t a p s)).callStack =
        s.callStack ++ [callSignature (k + 2) f t a] := by
      rw [tohRun_callStack, preState_callStack]
    have i1 := ih f a t (some (s.nodeIdCounter + 1)) (preState (k + 2) f t a p s)
    have i2 := ih a t f (some (s.nodeIdCounter + 1))
      (midState (k + 2) f t a (s.nodeIdCounter + 1)
        (tohRun k f a t (some (s.nodeIdCounter + 1)) (preState (k + 2) f t a p s)))
    rw [preState_nodeIdCounter, lpre, preState_callStack] at i1
    rw [cmid, lmid, midState_callStack, cs3] at i2
    intro st hst
    rw [newSteps_succ] at hst
    simp only [List.mem_append, List.mem_cons, List.mem_singleton, List.mem_nil_iff,
      or_false] at hst
    rcases hst with (((((rfl | rfl) | hst) | (rfl | rfl | rfl)) | hst) | rfl)
    · exact StackOK.own rfl rfl
    · exact StackOK.own rfl rfl
    · refine StackOK.sub ?_ (i1 st hst)
      intro x hx
      rw [callNodes_succ_eq]
      simp [hx]
    · exact StackOK.own rfl (by simp [plainStep, isReturning, cs3])
    · exact StackOK.own rfl (by simp [moveStep, isReturning, cs3])
    · exact StackOK.own rfl (by simp [plainStep, isReturning, cs3])
    · refine StackOK.sub ?_ (i2 st hst)
      intro x hx
      rw [callNodes_succ_eq]
      simp [hx]
    · exact StackOK.own rfl (by simp [returnStep, isReturning, tohRun_callStack])

theorem initial_setup_not_mem_phaseSeq (k : Nat) : Phase.initial_setup ∉ phaseSeq k := by
  induction k using Nat.strong_induction_on with
  | _ k ih =>
    match k with
    | 0 => simp [phaseSeq]
    | 1 => simp [phaseSeq]
    | k + 2 =>
      have h := ih (k + 1) (by omega)
      simp [phaseSeq, h]

/-- C13: for every N >= 1 and every step with an active node v, the recorded
call stack lists the call signatures of the nodes on the parent chain from the
root down to v, root first; on the returning step of v the signature of v is
already gone, so the stack lists the chain down to the parent of v. The
`initial_setup` and `finished` steps record an empty call stack. -/
theorem recorded_call_stack (n : Nat) :
    ∃ g, generateTowerOfHanoiSteps (n + 1) = some g ∧
      ∀ st ∈ g.steps,
        (∀ v, st.activeNodeId = some v →
          ∃ path last, ParentChain g.treeStructure none path ∧ path.getLast? = some last ∧
            last.id = v ∧
            st.callStack =
              (if st.nodePhase = .returning_base ∨ st.nodePhase = .returning_N
                then path.dropLast else path).map nodeSignature) ∧
        ((st.nodePhase = .initial_setup ∨ st.nodePhase = .finished) → st.callStack = []) := by
  refine ⟨_, generate_succ n, ?_⟩
  show ∀ st ∈ initialStep (n + 1) :: (newSteps n .A .C .B none (startState (n + 1)) ++
      [finishedStep (tohRun n .A .C .B none (startState (n + 1)))]),
    (∀ v, st.activeNodeId = some v →
      ∃ path last, ParentChain (tohRun n .A .C .B none (startState (n + 1))).generatedTreeNodes
          none path ∧ path.getLast? = some last ∧ last.id = v ∧
        st.callStack =
          (if st.nodePhase = .returning_base ∨ st.nodePhase = .returning_N
            then path.dropLast else path).map nodeSignature) ∧
    ((st.nodePhase = .initial_setup ∨ st.nodePhase = .finished) → st.callStack = [])
  rw [tree_eq_callNodes]
  intro st hst
  simp only [List.mem_cons, List.mem_append, List.mem_singleton, List.mem_nil_iff,
    or_false] at hst
  rcases hst with rfl | hst | rfl
  · exact ⟨fun v hv => Option.noConfusion hv, fun _ => rfl⟩
  · constructor
    · intro v hv
      obtain ⟨path, last, hch, hlast, hid, hcs⟩ :=
        newSteps_stack n .A .C .B none (startState (n + 1)) st hst
      refine ⟨path, last, hch, hlast, ?_, ?_⟩
      · rw [hid] at hv
        exact Option.some.inj hv
      · rw [hcs]
        simp [isReturning]
    · intro hph
      exfalso
      have hmem : st.nodePhase ∈ phaseSeq (n + 1) := by
        rw [← newSteps_phases n .A .C .B none (startState (n + 1))]
        exact List.mem_map_of_mem _ hst
      rcases hph with hph | hph
      · rw [hph] at hmem
        exact initial_setup_not_mem_phaseSeq _ hmem
      · rw [hph] at hmem
        exact finished_not_mem_phaseSeq _ hmem
  · refine ⟨fun v hv => Option.noConfusion hv, fun _ => ?_⟩
    show (tohRun n .A .C .B none (startState (n + 1))).callStack = []
    rw [tohRun_callStack]
    rfl

end Hanoi
